import Mathlib

/-!
# Verification of the MobilityDB temporal sequence set engine (temporals.c)

This file gives a shallow embedding of the sequence-set engine of
`temporals.c` and proves (or refutes) the specified properties.

Modelling conventions:
* `TimestampTz` values are modelled by `ℚ`: the engine only ever compares
  timestamps, and the rationals give the densely ordered time line that the
  continuous-time semantics of periods assumes.
* `Datum` base values are likewise modelled by `ℚ`.
* C out-parameters plus a success flag become `Option`/pairs; `ereport(ERROR)`
  and a failing `assert` become an `Except` error; `pfree` of a `NULL`
  pointer (a crash in PostgreSQL) becomes an `Except` error as well.
* Loops with cursor variables are translated as fuel-indexed structural
  recursions; the fuel passed at every call site is a bound that the C loop
  never exceeds, and the correctness lemmas show the fuel suffices.
* Functions of the repository that live outside `temporals.c` (the Sequence
  collaborator, `period.c`, `periodset.c`, the box operations) are modelled
  from the specification; each such definition is marked
  `Modelled from the spec:` in its doc comment.
-/

/-! ## Periods -/

/-- A period of the time line: a range of timestamps with independently
inclusive/exclusive lower and upper bounds (`period.h`). -/
structure Period where
  lower : ℚ
  upper : ℚ
  lower_inc : Bool
  upper_inc : Bool
deriving DecidableEq, Repr

instance : Inhabited Period := ⟨⟨0, 0, true, true⟩⟩

/-- Modelled from the spec: a well-formed period is non-empty, i.e. its lower
bound is below its upper bound, degenerate single-instant periods having both
bounds inclusive (invariant enforced by `period_set`). -/
def period_valid (p : Period) : Bool :=
  decide (p.lower < p.upper) || (decide (p.lower = p.upper) && p.lower_inc && p.upper_inc)

/-- Modelled from the spec: `contains_period_timestamp_internal` of `period.c`,
membership of a timestamp in a period respecting the bound inclusivities. -/
def contains_period_timestamp (p : Period) (t : ℚ) : Bool :=
  (decide (p.lower < t) || (decide (p.lower = t) && p.lower_inc)) &&
  (decide (t < p.upper) || (decide (t = p.upper) && p.upper_inc))

/-- Modelled from the spec: `overlaps_period_period_internal` of `period.c`,
the bound-comparison test for two periods sharing part of the time line. -/
def overlaps_period_period (p q : Period) : Bool :=
  (decide (p.lower < q.upper) || (decide (p.lower = q.upper) && p.lower_inc && q.upper_inc)) &&
  (decide (q.lower < p.upper) || (decide (q.lower = p.upper) && q.lower_inc && p.upper_inc))

/-- Modelled from the spec: `intersection_period_period_internal` of
`period.c`: the later lower bound and the earlier upper bound, ties taking
the conjunction of the inclusivity flags. -/
def period_inter (p q : Period) : Period :=
  { lower := if p.lower < q.lower then q.lower else p.lower
    upper := if p.upper < q.upper then p.upper else q.upper
    lower_inc :=
      if p.lower < q.lower then q.lower_inc
      else if q.lower < p.lower then p.lower_inc
      else p.lower_inc && q.lower_inc
    upper_inc :=
      if p.upper < q.upper then p.upper_inc
      else if q.upper < p.upper then q.upper_inc
      else p.upper_inc && q.upper_inc }

/-- Modelled from the spec: `period_cmp_internal` of `period.c`, the B-tree
lexicographic comparison of periods: lower bound timestamp, then lower
inclusivity (inclusive first), then upper bound timestamp, then upper
inclusivity (exclusive first). -/
def period_cmp (p q : Period) : Int :=
  if p.lower < q.lower then -1
  else if q.lower < p.lower then 1
  else if p.lower_inc ≠ q.lower_inc then (if p.lower_inc then -1 else 1)
  else if p.upper < q.upper then -1
  else if q.upper < p.upper then 1
  else if p.upper_inc ≠ q.upper_inc then (if p.upper_inc then 1 else -1)
  else 0

/-- Modelled from the spec: `period_eq_internal` of `period.c`. -/
def period_eqb (p q : Period) : Bool := period_cmp p q == 0

/-- Modelled from the spec: `period_lt_internal` of `period.c`. -/
def period_ltb (p q : Period) : Bool := period_cmp p q < 0

/-! ### Cut machinery

A bound of a period is represented by a *cut* of the dense time line: a pair
of the bound timestamp and an integer rank.  A lower bound at `t` starts at
rank `0` when inclusive and just after `t` (rank `1`) when exclusive; an upper
bound at `t` ends at rank `0` when inclusive and just before `t` (rank `-1`)
when exclusive.  All bound comparisons of the engine become lexicographic
comparisons of cuts.  This is proof machinery only; the executable
definitions above mirror the C code. -/

/-- Strict lexicographic order on cuts. -/
def cutLT (a b : ℚ × Int) : Prop := a.1 < b.1 ∨ (a.1 = b.1 ∧ a.2 < b.2)

/-- Lexicographic order on cuts. -/
def cutLE (a b : ℚ × Int) : Prop := a.1 < b.1 ∨ (a.1 = b.1 ∧ a.2 ≤ b.2)

/-- The cut at which a period starts. -/
def sCut (p : Period) : ℚ × Int := (p.lower, if p.lower_inc then 0 else 1)

/-- The cut at which a period ends. -/
def eCut (p : Period) : ℚ × Int := (p.upper, if p.upper_inc then 0 else -1)

/-- The cut of a plain timestamp. -/
def tCut (t : ℚ) : ℚ × Int := (t, 0)

theorem cutLE_refl (a : ℚ × Int) : cutLE a a := Or.inr ⟨rfl, le_refl _⟩

theorem cutLT_trans {a b c : ℚ × Int} (h1 : cutLT a b) (h2 : cutLT b c) : cutLT a c := by
  rcases h1 with h1 | ⟨h1, h1r⟩ <;> rcases h2 with h2 | ⟨h2, h2r⟩
  · exact Or.inl (lt_trans h1 h2)
  · exact Or.inl (h2 ▸ h1)
  · exact Or.inl (h1 ▸ h2)
  · exact Or.inr ⟨h1.trans h2, lt_trans h1r h2r⟩

theorem cutLE_trans {a b c : ℚ × Int} (h1 : cutLE a b) (h2 : cutLE b c) : cutLE a c := by
  rcases h1 with h1 | ⟨h1, h1r⟩ <;> rcases h2 with h2 | ⟨h2, h2r⟩
  · exact Or.inl (lt_trans h1 h2)
  · exact Or.inl (h2 ▸ h1)
  · exact Or.inl (h1 ▸ h2)
  · exact Or.inr ⟨h1.trans h2, le_trans h1r h2r⟩

theorem cutLT_of_LE_of_LT {a b c : ℚ × Int} (h1 : cutLE a b) (h2 : cutLT b c) : cutLT a c := by
  rcases h1 with h1 | ⟨h1, h1r⟩ <;> rcases h2 with h2 | ⟨h2, h2r⟩
  · exact Or.inl (lt_trans h1 h2)
  · exact Or.inl (h2 ▸ h1)
  · exact Or.inl (h1 ▸ h2)
  · exact Or.inr ⟨h1.trans h2, lt_of_le_of_lt h1r h2r⟩

theorem cutLT_of_LT_of_LE {a b c : ℚ × Int} (h1 : cutLT a b) (h2 : cutLE b c) : cutLT a c := by
  rcases h1 with h1 | ⟨h1, h1r⟩ <;> rcases h2 with h2 | ⟨h2, h2r⟩
  · exact Or.inl (lt_trans h1 h2)
  · exact Or.inl (h2 ▸ h1)
  · exact Or.inl (h1 ▸ h2)
  · exact Or.inr ⟨h1.trans h2, lt_of_lt_of_le h1r h2r⟩

theorem cutLE_of_LT {a b : ℚ × Int} (h : cutLT a b) : cutLE a b := by
  rcases h with h | ⟨h, hr⟩
  · exact Or.inl h
  · exact Or.inr ⟨h, le_of_lt hr⟩

theorem cutLT_of_not_LE {a b : ℚ × Int} (h : ¬ cutLE a b) : cutLT b a := by
  unfold cutLE at h
  push_neg at h
  rcases lt_trichotomy b.1 a.1 with hq | hq | hq
  · exact Or.inl hq
  · exact Or.inr ⟨hq, by have := h.2 hq.symm; omega⟩
  · exact absurd hq (not_lt_of_ge h.1)

theorem not_cutLE_of_LT {a b : ℚ × Int} (h : cutLT a b) : ¬ cutLE b a := by
  intro hc
  rcases h with h | ⟨h, hr⟩ <;> rcases hc with hc | ⟨hc, hcr⟩
  · exact absurd (lt_trans h hc) (lt_irrefl _)
  · exact absurd h (hc ▸ lt_irrefl _)
  · exact absurd hc (h ▸ lt_irrefl _)
  · omega

/-- Bridge: the C membership test, in cut language. -/
theorem contains_iff_cut {p : Period} {t : ℚ} :
    contains_period_timestamp p t = true ↔ cutLE (sCut p) (tCut t) ∧ cutLE (tCut t) (eCut p) := by
  unfold contains_period_timestamp cutLE sCut eCut tCut
  cases hl : p.lower_inc <;> cases hu : p.upper_inc <;>
    simp only [Bool.and_eq_true, Bool.or_eq_true, decide_eq_true_eq, Bool.and_true,
      Bool.and_false, Bool.false_eq_true, or_false, and_true, and_false] <;>
    constructor <;> intro h <;>
    rcases h with ⟨h1, h2⟩ <;>
    refine ⟨?_, ?_⟩ <;>
    first
      | (rcases h1 with h1 | h1 <;> [exact Or.inl h1; (first | exact Or.inr ⟨h1.symm ▸ rfl, by omega⟩ | omega | exact Or.inr ⟨by omega, by omega⟩ | simp_all)])
      | (rcases h2 with h2 | h2 <;> [exact Or.inl h2; (first | exact Or.inr ⟨by omega, by omega⟩ | omega | simp_all)])
      | simp_all
      | omega

/-- Bridge: validity of a period, in cut language. -/
theorem valid_iff_cut {p : Period} :
    period_valid p = true ↔ cutLE (sCut p) (eCut p) := by
  unfold period_valid cutLE sCut eCut
  cases hl : p.lower_inc <;> cases hu : p.upper_inc <;>
    simp only [Bool.or_eq_true, Bool.and_eq_true, decide_eq_true_eq, Bool.and_true,
      Bool.and_false, and_true, and_false, or_false] <;>
    constructor <;> intro h <;>
    first
      | (rcases h with h | h
         · exact Or.inl h
         · first
             | exact Or.inr ⟨h, by omega⟩
             | exact Or.inr ⟨h.1, by omega⟩
             | omega
             | simp_all)
      | (rcases h with h | ⟨h, hr⟩
         · exact Or.inl h
         · first | omega | exact Or.inr h | exact h.symm ▸ (by omega) | simp_all)
      | simp_all
      | omega

/-- Bridge: the C overlap test, in cut language. -/
theorem overlaps_iff_cut {p q : Period} :
    overlaps_period_period p q = true ↔ cutLE (sCut p) (eCut q) ∧ cutLE (sCut q) (eCut p) := by
  unfold overlaps_period_period cutLE sCut eCut
  cases h1 : p.lower_inc <;> cases h2 : p.upper_inc <;>
    cases h3 : q.lower_inc <;> cases h4 : q.upper_inc <;>
    simp only [Bool.and_eq_true, Bool.or_eq_true, decide_eq_true_eq, Bool.and_true,
      Bool.and_false, Bool.false_eq_true, Bool.true_and, Bool.false_and,
      or_false, and_true, and_false] <;>
    constructor <;> intro h <;> rcases h with ⟨ha, hb⟩ <;>
    constructor <;>
    first
      | (rcases ha with ha | ha <;> [exact Or.inl ha; (first | exact Or.inr ⟨by omega, by omega⟩ | omega | simp_all)])
      | (rcases hb with hb | hb <;> [exact Or.inl hb; (first | exact Or.inr ⟨by omega, by omega⟩ | omega | simp_all)])
      | simp_all
      | omega

/-- Larger of two cuts. -/
def cutMax (a b : ℚ × Int) : ℚ × Int :=
  if a.1 < b.1 then b else if b.1 < a.1 then a else (a.1, max a.2 b.2)

/-- Smaller of two cuts. -/
def cutMin (a b : ℚ × Int) : ℚ × Int :=
  if a.1 < b.1 then a else if b.1 < a.1 then b else (a.1, min a.2 b.2)

theorem cutLE_cutMax_iff {a b c : ℚ × Int} :
    cutLE (cutMax a b) c ↔ cutLE a c ∧ cutLE b c := by
  unfold cutMax cutLE
  rcases lt_trichotomy a.1 b.1 with h | h | h
  · rw [if_pos h]
    constructor
    · intro hx
      refine ⟨?_, hx⟩
      rcases hx with hx | ⟨hx, hr⟩
      · exact Or.inl (lt_trans h hx)
      · exact Or.inl (hx ▸ h)
    · exact And.right
  · rw [if_neg (by rw [h]; exact lt_irrefl _), if_neg (by rw [h]; exact lt_irrefl _)]
    constructor
    · rintro (hx | ⟨hx, hr⟩)
      · exact ⟨Or.inl hx, Or.inl (h ▸ hx)⟩
      · exact ⟨Or.inr ⟨hx, le_trans (le_max_left _ _) hr⟩,
          Or.inr ⟨h ▸ hx, le_trans (le_max_right _ _) hr⟩⟩
    · rintro ⟨hx1 | ⟨hx1, hr1⟩, hx2 | ⟨hx2, hr2⟩⟩
      · exact Or.inl hx1
      · exact Or.inl hx1
      · exact Or.inl (h.symm ▸ hx2)
      · exact Or.inr ⟨hx1, max_le hr1 hr2⟩
  · rw [if_neg (asymm h), if_pos h]
    constructor
    · intro hx
      refine ⟨hx, ?_⟩
      rcases hx with hx | ⟨hx, hr⟩
      · exact Or.inl (lt_trans h hx)
      · exact Or.inl (hx ▸ h)
    · exact And.left

theorem cutLE_cutMin_iff {a b c : ℚ × Int} :
    cutLE c (cutMin a b) ↔ cutLE c a ∧ cutLE c b := by
  unfold cutMin cutLE
  rcases lt_trichotomy a.1 b.1 with h | h | h
  · rw [if_pos h]
    constructor
    · intro hx
      refine ⟨hx, ?_⟩
      rcases hx with hx | ⟨hx, hr⟩
      · exact Or.inl (lt_trans hx h)
      · exact Or.inl (hx.symm ▸ h)
    · exact And.left
  · rw [if_neg (by rw [h]; exact lt_irrefl _), if_neg (by rw [h]; exact lt_irrefl _)]
    constructor
    · rintro (hx | ⟨hx, hr⟩)
      · exact ⟨Or.inl hx, Or.inl (h ▸ hx)⟩
      · exact ⟨Or.inr ⟨hx, le_trans hr (min_le_left _ _)⟩,
          Or.inr ⟨hx.trans h, le_trans hr (min_le_right _ _)⟩⟩
    · rintro ⟨hx1 | ⟨hx1, hr1⟩, hx2 | ⟨hx2, hr2⟩⟩
      · exact Or.inl hx1
      · exact Or.inl hx1
      · exact Or.inl (h.symm ▸ hx2)
      · exact Or.inr ⟨hx1, le_min hr1 hr2⟩
  · rw [if_neg (asymm h), if_pos h]
    constructor
    · intro hx
      refine ⟨?_, hx⟩
      rcases hx with hx | ⟨hx, hr⟩
      · exact Or.inl (lt_trans hx h)
      · exact Or.inl (hx.symm ▸ h)
    · exact And.right

theorem sCut_inter (p q : Period) : sCut (period_inter p q) = cutMax (sCut p) (sCut q) := by
  simp only [sCut, period_inter, cutMax]
  rcases lt_trichotomy p.lower q.lower with h | h | h
  · simp [h, lt_asymm h]
  · simp only [h, lt_irrefl, if_false]
    cases hp : p.lower_inc <;> cases hq : q.lower_inc <;>
      simp [Prod.ext_iff] <;> omega
  · simp [lt_asymm h, h]

theorem eCut_inter (p q : Period) : eCut (period_inter p q) = cutMin (eCut p) (eCut q) := by
  simp only [eCut, period_inter, cutMin]
  rcases lt_trichotomy p.upper q.upper with h | h | h
  · simp [h, lt_asymm h]
  · simp only [h, lt_irrefl, if_false]
    cases hp : p.upper_inc <;> cases hq : q.upper_inc <;>
      simp [Prod.ext_iff] <;> omega
  · simp [lt_asymm h, h]

/-- Membership in an intersection period is simultaneous membership. -/
theorem contains_inter_iff {p q : Period} {t : ℚ} :
    contains_period_timestamp (period_inter p q) t = true ↔
      contains_period_timestamp p t = true ∧ contains_period_timestamp q t = true := by
  rw [contains_iff_cut, contains_iff_cut, contains_iff_cut, sCut_inter, eCut_inter,
    cutLE_cutMax_iff, cutLE_cutMin_iff]
  tauto

/-- A well-formed period contains at least one timestamp (density of ℚ). -/
theorem exists_mem_of_valid {p : Period} (hp : period_valid p = true) :
    ∃ t : ℚ, contains_period_timestamp p t = true := by
  unfold period_valid at hp
  simp only [Bool.or_eq_true, Bool.and_eq_true, decide_eq_true_eq] at hp
  rcases hp with hlt | ⟨⟨heq, hl⟩, hu⟩
  · cases hl : p.lower_inc
    · cases hu : p.upper_inc
      · obtain ⟨t, ht1, ht2⟩ := exists_between hlt
        refine ⟨t, ?_⟩
        unfold contains_period_timestamp
        simp [ht1, ht2]
      · refine ⟨p.upper, ?_⟩
        unfold contains_period_timestamp
        simp [hlt, hu]
    · refine ⟨p.lower, ?_⟩
      unfold contains_period_timestamp
      simp [hlt, hl]
  · refine ⟨p.lower, ?_⟩
    unfold contains_period_timestamp
    simp [heq, hl, hu]

/-- The intersection of two valid overlapping periods is valid. -/
theorem inter_valid {p q : Period} (hp : period_valid p = true) (hq : period_valid q = true)
    (h : overlaps_period_period p q = true) : period_valid (period_inter p q) = true := by
  rw [valid_iff_cut, sCut_inter, eCut_inter, cutLE_cutMax_iff]
  obtain ⟨h1, h2⟩ := overlaps_iff_cut.mp h
  exact ⟨cutLE_cutMin_iff.mpr ⟨valid_iff_cut.mp hp, h1⟩,
    cutLE_cutMin_iff.mpr ⟨h2, valid_iff_cut.mp hq⟩⟩

/-- Two valid periods overlap (as the C bound test says) exactly when some
timestamp belongs to both. -/
theorem overlaps_iff_exists_mem {p q : Period} (hp : period_valid p = true)
    (hq : period_valid q = true) :
    overlaps_period_period p q = true ↔
      ∃ t : ℚ, contains_period_timestamp p t = true ∧
        contains_period_timestamp q t = true := by
  constructor
  · intro h
    obtain ⟨t, ht⟩ := exists_mem_of_valid (inter_valid hp hq h)
    exact ⟨t, contains_inter_iff.mp ht⟩
  · rintro ⟨t, htp, htq⟩
    obtain ⟨hp1, hp2⟩ := contains_iff_cut.mp htp
    obtain ⟨hq1, hq2⟩ := contains_iff_cut.mp htq
    exact overlaps_iff_cut.mpr ⟨cutLE_trans hp1 hq2, cutLE_trans hq1 hp2⟩

/-- The ordering test of the builder `temporals_make` on a consecutive pair
of sequence periods: true when the pair is *broken* (decreasing, or touching
with both boundaries inclusive). -/
def broken_order (p1 p2 : Period) : Bool :=
  decide (p2.lower < p1.upper) ||
    (decide (p1.upper = p2.lower) && p1.upper_inc && p2.lower_inc)

/-- Bridge: a consecutive pair is correctly ordered exactly when the first
period ends strictly before the second starts, in cut language. -/
theorem not_broken_iff_cut {p1 p2 : Period} :
    broken_order p1 p2 = false ↔ cutLT (eCut p1) (sCut p2) := by
  unfold broken_order cutLT eCut sCut
  simp only [Bool.or_eq_false_iff, Bool.and_eq_false_iff, decide_eq_false_iff_not, not_lt]
  rcases lt_trichotomy p1.upper p2.lower with hq | hq | hq
  · simp [hq, le_of_lt hq, ne_of_lt hq]
  · simp only [hq, lt_irrefl, le_refl, true_and, false_or, eq_self_iff_true, not_true,
      false_and, and_true]
    cases h1 : p1.upper_inc <;> cases h2 : p2.lower_inc <;> simp
  · simp [not_le.mpr hq, lt_asymm hq, ne_of_gt hq]

/-! ## Data model: instants, sequences, sequence sets -/

/-- Base-type tags (`valuetypid` Oids) relevant to the engine. -/
inductive Typid
  | tbool
  | tint
  | tfloat
  | ttext
  | tgeompoint
  | tgeogpoint
deriving DecidableEq, Repr

/-- Whether a tag is a spatial (geometry/geography) type. -/
def Typid.isGeo : Typid → Bool
  | tgeompoint => true
  | tgeogpoint => true
  | _ => false

/-- A temporal instant (`TemporalInst`): one base value at one timestamp. -/
structure TInst where
  value : ℚ
  t : ℚ
deriving DecidableEq, Repr

instance : Inhabited TInst := ⟨⟨0, 0⟩⟩

/-- The fields of the external Sequence collaborator (`TemporalSeq`) that the
sequence-set engine reads: the owned instants, the period, the value-type tag,
the interpolation mode and the spatial metadata. -/
structure TemporalSeq where
  instants : List TInst
  period : Period
  valuetypid : Typid
  linear : Bool
  srid : Int
  hasZ : Bool
  geodetic : Bool
deriving DecidableEq, Repr

instance : Inhabited TemporalSeq :=
  ⟨⟨[default], default, Typid.tint, false, 0, false, false⟩⟩

/-- Number of instants of a sequence (`seq->count`). -/
def TemporalSeq.count (s : TemporalSeq) : Nat := s.instants.length

/-- `temporalseq_inst_n`: the n-th instant of a sequence. -/
def temporalseq_inst_n (s : TemporalSeq) (i : Nat) : TInst := s.instants.getD i default

/-- Modelled from the spec: the bounding box summary (the `TBOX` shape): a
value range and a time range. -/
structure TBox where
  xmin : ℚ
  xmax : ℚ
  tmin : ℚ
  tmax : ℚ
deriving DecidableEq, Repr

instance : Inhabited TBox := ⟨⟨0, 0, 0, 0⟩⟩

/-- Modelled from the spec: `temporalinst_make_bbox` — the box of one instant. -/
def temporalinst_make_bbox (i : TInst) : TBox := ⟨i.value, i.value, i.t, i.t⟩

/-- Modelled from the spec: `temporal_bbox_expand` — expand the first box to
cover the second. -/
def temporal_bbox_expand (b1 b2 : TBox) : TBox :=
  ⟨min b1.xmin b2.xmin, max b1.xmax b2.xmax, min b1.tmin b2.tmin, max b1.tmax b2.tmax⟩

/-- Modelled from the spec: the box of one sequence (`temporalseq_bbox`). -/
def temporalseq_bbox (s : TemporalSeq) : TBox :=
  match s.instants with
  | [] => default
  | i :: rest => rest.foldl (fun b j => temporal_bbox_expand b (temporalinst_make_bbox j))
      (temporalinst_make_bbox i)

/-- Modelled from the spec: `temporals_make_bbox` — the union of the
per-sequence boxes. -/
def temporals_make_bbox (ss : List TemporalSeq) : TBox :=
  match ss with
  | [] => default
  | s :: rest => rest.foldl (fun b s2 => temporal_bbox_expand b (temporalseq_bbox s2))
      (temporalseq_bbox s)

/-- The sequence set (`TemporalS`).  The hand-packed buffer with its offset
table is represented by the list of packed sequences; the header fields and
the trailing bounding box are kept explicitly, as the C code stores (rather
than recomputes) them. -/
structure TemporalS where
  sequences : List TemporalSeq
  count : Nat
  totalcount : Int
  valuetypid : Typid
  linear : Bool
  hasZ : Bool
  geodetic : Bool
  bbox : TBox
deriving DecidableEq, Repr

instance : Inhabited TemporalS :=
  ⟨⟨[default], 1, 1, Typid.tint, false, false, false, default⟩⟩

/-- `temporals_seq_n` (temporals.c:41-47): the n-th sequence of the set. -/
def temporals_seq_n (ts : TemporalS) (i : Nat) : TemporalSeq := ts.sequences.getD i default

/-- The period of the n-th sequence. -/
def periodN (ts : TemporalS) (i : Nat) : Period := (temporals_seq_n ts i).period

/-- `temporals_bbox` (temporals.c:62-68): read the trailing box. -/
def temporals_bbox (ts : TemporalS) : TBox := ts.bbox

/-- `temporals_period` (temporals.c:1213-1220): the bounding period, from the
start of the first and the end of the last sequence. -/
def temporals_period (ts : TemporalS) : Period :=
  { lower := (temporals_seq_n ts 0).period.lower
    upper := (temporals_seq_n ts (ts.count - 1)).period.upper
    lower_inc := (temporals_seq_n ts 0).period.lower_inc
    upper_inc := (temporals_seq_n ts (ts.count - 1)).period.upper_inc }

/-- `temporals_copy` (temporals.c:402-408): a full copy of the buffer. -/
def temporals_copy (ts : TemporalS) : TemporalS := ts

/-- Errors of the engine: a failing `assert`, the two construction errors of
the builder (`ereport(ERROR)`), and the `pfree(NULL)` crash. -/
inductive CErr
  | assertFail
  | brokenOrder (t1 t2 : ℚ)
  | mixedGeo
  | pfreeNull
deriving DecidableEq, Repr

instance {e a : Type} [DecidableEq e] [DecidableEq a] : DecidableEq (Except e a) := fun
  | .error e1, .error e2 =>
    if h : e1 = e2 then isTrue (by rw [h]) else isFalse (fun hc => h (by injection hc))
  | .error _, .ok _ => isFalse (fun hc => Except.noConfusion hc)
  | .ok _, .error _ => isFalse (fun hc => Except.noConfusion hc)
  | .ok a1, .ok a2 =>
    if h : a1 = a2 then isTrue (by rw [h]) else isFalse (fun hc => h (by injection hc))

/-! ## Layout builder -/

/-- Modelled from the spec: `ensure_same_srid_tpoint` and
`ensure_same_dimensionality_tpoint` — a construction error when the spatial
reference or the dimensionality of two sequences differ. -/
def ensure_same_geo (s1 s2 : TemporalSeq) : Except CErr Unit :=
  if s1.srid ≠ s2.srid then .error .mixedGeo
  else if s1.hasZ ≠ s2.hasZ then .error .mixedGeo
  else .ok ()

/-- The validity loop of `temporals_make` (temporals.c:102-118): each
consecutive pair must be increasing and, for spatial values, agree on
reference and dimensionality. -/
def make_check (isgeo : Bool) (prev : TemporalSeq) : List TemporalSeq → Except CErr Unit
  | [] => .ok ()
  | s :: rest =>
    if broken_order prev.period s.period then
      .error (.brokenOrder prev.period.upper s.period.lower)
    else if isgeo then
      match ensure_same_geo prev s with
      | .error e => .error e
      | .ok _ => make_check isgeo s rest
    else make_check isgeo s rest

/-- Value of a sequence at its first instant (head of the run). -/
def TemporalSeq.headValue (s : TemporalSeq) : ℚ := (s.instants.getD 0 default).value

/-- Value of a sequence at its last instant (tail of the run). -/
def TemporalSeq.tailValue (s : TemporalSeq) : ℚ :=
  (s.instants.getD (s.instants.length - 1) default).value

/-- Modelled from the spec (4.1a Normalize): two consecutive sequences are
merged when they are time-adjacent, share the interpolation mode, and the
tail value of the first equals the head value of the second. -/
def seq_mergeable (s1 s2 : TemporalSeq) : Bool :=
  decide (s1.period.upper = s2.period.lower) && (s1.linear == s2.linear) &&
    decide (s1.tailValue = s2.headValue)

/-- Modelled from the spec (4.1a Normalize): collapse two mergeable sequences
into one, keeping the outer bounds. -/
def seq_merge (s1 s2 : TemporalSeq) : TemporalSeq :=
  { s1 with
    instants := s1.instants ++ s2.instants
    period := ⟨s1.period.lower, s2.period.upper, s1.period.lower_inc, s2.period.upper_inc⟩ }

/-- One left-to-right pass of Normalize over the tail of the array. -/
def normalize_go (cur : TemporalSeq) : List TemporalSeq → List TemporalSeq
  | [] => [cur]
  | s :: rest =>
    if seq_mergeable cur s then normalize_go (seq_merge cur s) rest
    else cur :: normalize_go s rest

/-- Modelled from the spec: `temporalseqarr_normalize` of the Sequence
collaborator — one left-to-right pass merging mergeable adjacent sequences. -/
def temporalseqarr_normalize : List TemporalSeq → List TemporalSeq
  | [] => []
  | s :: rest => normalize_go s rest

/-- The header and buffer assembly of `temporals_make` (temporals.c:124-170):
count, total instant count, flags from the first input sequence, the packed
sequences, and the union bounding box. -/
def build_ts (news : List TemporalSeq) (s0 : TemporalSeq) (isgeo : Bool) : TemporalS :=
  { sequences := news
    count := news.length
    totalcount := (news.map (fun s => (s.count : Int))).sum
    valuetypid := s0.valuetypid
    linear := s0.linear
    hasZ := if isgeo then s0.hasZ else false
    geodetic := if isgeo then s0.geodetic else false
    bbox := temporals_make_bbox news }

/-- `temporals_make` (temporals.c:95-178): validate the input, optionally
normalize, then pack. -/
def temporals_make (sequences : List TemporalSeq) (normalize : Bool) : Except CErr TemporalS :=
  match sequences with
  | [] => .error .assertFail
  | s0 :: rest => do
    let isgeo := s0.valuetypid.isGeo
    make_check isgeo s0 rest
    let news := if normalize && (s0 :: rest).length > 1
      then temporalseqarr_normalize (s0 :: rest) else (s0 :: rest)
    .ok (build_ts news s0 isgeo)

/-- `temporals_make_free` (temporals.c:188-201): `NULL` for an empty input,
otherwise `temporals_make`. -/
def temporals_make_free (sequences : List TemporalSeq) (normalize : Bool) :
    Except CErr (Option TemporalS) :=
  if sequences.isEmpty then .ok none
  else (temporals_make sequences normalize).map some

/-! ## Validity of a sequence set -/

/-- A well-formed sequence: at least one instant and a valid period. -/
def seq_valid (s : TemporalSeq) : Bool := !s.instants.isEmpty && period_valid s.period

/-- The ordering invariant, pair by pair. -/
def seqs_sorted : List TemporalSeq → Bool
  | [] => true
  | [_] => true
  | a :: b :: rest => !broken_order a.period b.period && seqs_sorted (b :: rest)

/-- All sequences share the value-type tag, the interpolation mode and the
spatial metadata of the first one. -/
def seqs_uniform (s0 : TemporalSeq) (l : List TemporalSeq) : Bool :=
  l.all (fun s => s.valuetypid == s0.valuetypid && s.linear == s0.linear &&
    s.srid == s0.srid && s.hasZ == s0.hasZ && s.geodetic == s0.geodetic)

/-- Validity of a sequence set: the invariants every Builder-produced set
satisfies (spec §3) together with the consistency of the stored header fields
and trailing box. -/
def valid_ts (ts : TemporalS) : Prop :=
  ts.sequences ≠ [] ∧
  ts.count = ts.sequences.length ∧
  ts.totalcount = (ts.sequences.map (fun s => (s.count : Int))).sum ∧
  (∀ s ∈ ts.sequences, seq_valid s = true) ∧
  seqs_sorted ts.sequences = true ∧
  seqs_uniform (ts.sequences.getD 0 default) ts.sequences = true ∧
  ts.valuetypid = (ts.sequences.getD 0 default).valuetypid ∧
  ts.linear = (ts.sequences.getD 0 default).linear ∧
  ts.hasZ = (if ts.valuetypid.isGeo then (ts.sequences.getD 0 default).hasZ else false) ∧
  ts.geodetic = (if ts.valuetypid.isGeo then (ts.sequences.getD 0 default).geodetic else false) ∧
  ts.bbox = temporals_make_bbox ts.sequences

instance (ts : TemporalS) : Decidable (valid_ts ts) := by
  unfold valid_ts
  infer_instance

/-- The ordering rule on a consecutive pair, stated as the spec states it:
increasing, or touching with not both boundaries inclusive. -/
def pair_ordered (p1 p2 : Period) : Prop :=
  p1.upper < p2.lower ∨
    (p1.upper = p2.lower ∧ ¬(p1.upper_inc = true ∧ p2.lower_inc = true))

theorem pair_ordered_iff_not_broken {p1 p2 : Period} :
    pair_ordered p1 p2 ↔ broken_order p1 p2 = false := by
  unfold pair_ordered broken_order
  simp only [Bool.or_eq_false_iff, Bool.and_eq_false_iff, decide_eq_false_iff_not, not_lt]
  constructor
  · rintro (h | ⟨he, hn⟩)
    · exact ⟨le_of_lt h, Or.inl (Or.inl (ne_of_lt h))⟩
    · refine ⟨le_of_eq he, ?_⟩
      cases hu : p1.upper_inc
      · exact Or.inl (Or.inr rfl)
      · cases hl : p2.lower_inc
        · exact Or.inr rfl
        · exact absurd ⟨hu, hl⟩ hn
  · rintro ⟨hle, hor⟩
    rcases lt_or_eq_of_le hle with hlt | he
    · exact Or.inl hlt
    · refine Or.inr ⟨he, fun hc => ?_⟩
      rcases hor with (hne | hu) | hl
      · exact hne he
      · rw [hc.1] at hu; exact Bool.true_eq_false.mp hu
      · rw [hc.2] at hl; exact Bool.true_eq_false.mp hl

/-- The combined per-pair test of the builder's validity loop. -/
def pair_checkb (isgeo : Bool) (a b : TemporalSeq) : Bool :=
  !broken_order a.period b.period &&
    (!isgeo || (a.srid == b.srid && a.hasZ == b.hasZ))

/-- The builder's validity loop as a pure predicate over adjacent pairs. -/
def pairs_okb (isgeo : Bool) : List TemporalSeq → Bool
  | [] => true
  | [_] => true
  | a :: b :: rest => pair_checkb isgeo a b && pairs_okb isgeo (b :: rest)

theorem make_check_ok_iff (isgeo : Bool) (prev : TemporalSeq) (l : List TemporalSeq) :
    make_check isgeo prev l = .ok () ↔ pairs_okb isgeo (prev :: l) = true := by
  induction l generalizing prev with
  | nil => simp [make_check, pairs_okb]
  | cons s rest ih =>
    rw [make_check, pairs_okb]
    unfold pair_checkb ensure_same_geo
    cases hb : broken_order prev.period s.period
    · cases hg : isgeo
      · simpa [hb, hg] using ih s
      · by_cases h1 : prev.srid = s.srid
        · by_cases h2 : prev.hasZ = s.hasZ
          · simpa [hb, hg, h1, h2] using ih s
          · simp [hb, h1, h2]
        · simp [hb, h1]
    · simp [hb]

theorem except_error_iff {α : Type} {x : Except CErr α} (a : α)
    (hx : x = .ok a ∨ ∃ e, x = .error e) : (∃ e, x = .error e) ↔ ¬(x = .ok a) := by
  rcases hx with h | ⟨e, h⟩ <;> subst h <;> simp

theorem seqs_sorted_eq_pairs (l : List TemporalSeq) : seqs_sorted l = pairs_okb false l := by
  induction l with
  | nil => rfl
  | cons a rest ih =>
    cases rest with
    | nil => rfl
    | cons b r2 =>
      rw [seqs_sorted, pairs_okb, ih]
      simp [pair_checkb]

theorem pairs_okb_iff_forall (isgeo : Bool) (l : List TemporalSeq) :
    pairs_okb isgeo l = true ↔ ∀ i, i + 1 < l.length →
      pair_checkb isgeo (l.getD i default) (l.getD (i+1) default) = true := by
  induction l with
  | nil => simp [pairs_okb]
  | cons a rest ih =>
    cases rest with
    | nil => simp [pairs_okb]
    | cons b r2 =>
      rw [pairs_okb, Bool.and_eq_true, ih]
      constructor
      · rintro ⟨h0, hrest⟩ i hi
        cases i with
        | zero => simpa using h0
        | succ j =>
          have := hrest j (by simp at hi ⊢; omega)
          simpa using this
      · intro h
        refine ⟨by simpa using h 0 (by simp), fun j hj => ?_⟩
        have := h (j+1) (by simp at hj ⊢; omega)
        simpa using this

theorem broken_congr_first {a b p : Period} (h1 : a.upper = b.upper)
    (h2 : a.upper_inc = b.upper_inc) : broken_order a p = broken_order b p := by
  unfold broken_order
  rw [h1, h2]

theorem broken_congr_second {p a b : Period} (h1 : a.lower = b.lower)
    (h2 : a.lower_inc = b.lower_inc) : broken_order p a = broken_order p b := by
  unfold broken_order
  rw [h1, h2]

theorem seqs_sorted_cons_congr {a b : TemporalSeq} (h1 : a.period.upper = b.period.upper)
    (h2 : a.period.upper_inc = b.period.upper_inc) (l : List TemporalSeq) :
    seqs_sorted (a :: l) = seqs_sorted (b :: l) := by
  cases l with
  | nil => rfl
  | cons c r =>
    rw [seqs_sorted, seqs_sorted, broken_congr_first h1 h2]

theorem normalize_go_head (cur : TemporalSeq) (l : List TemporalSeq) :
    ∃ c rest2, normalize_go cur l = c :: rest2 ∧
      c.period.lower = cur.period.lower ∧ c.period.lower_inc = cur.period.lower_inc := by
  induction l generalizing cur with
  | nil => exact ⟨cur, [], rfl, rfl, rfl⟩
  | cons s rest ih =>
    rw [normalize_go]
    cases hm : seq_mergeable cur s
    · simp only [Bool.false_eq_true, if_false]
      exact ⟨cur, normalize_go s rest, rfl, rfl, rfl⟩
    · simp only [if_pos rfl]
      obtain ⟨c, r2, he, hl, hi⟩ := ih (seq_merge cur s)
      exact ⟨c, r2, he, hl, hi⟩

theorem normalize_go_sorted (cur : TemporalSeq) (l : List TemporalSeq)
    (h : seqs_sorted (cur :: l) = true) : seqs_sorted (normalize_go cur l) = true := by
  induction l generalizing cur with
  | nil => simpa [normalize_go, seqs_sorted] using h
  | cons s rest ih =>
    rw [seqs_sorted, Bool.and_eq_true] at h
    rw [normalize_go]
    cases hm : seq_mergeable cur s
    · simp only [Bool.false_eq_true, if_false]
      obtain ⟨c, r2, he, hl, hi⟩ := normalize_go_head s rest
      have hs := ih s h.2
      rw [he] at hs
      rw [he, seqs_sorted, Bool.and_eq_true]
      refine ⟨?_, hs⟩
      rw [broken_congr_second (p := cur.period) hl.symm hi.symm] at h
      exact h.1
    · simp only [if_pos rfl]
      apply ih (seq_merge cur s)
      rw [seqs_sorted_cons_congr (a := seq_merge cur s) (b := s) rfl rfl]
      exact h.2

theorem temporals_make_sequences {sequences : List TemporalSeq} {normalize : Bool}
    {ts : TemporalS} (h : temporals_make sequences normalize = .ok ts) :
    (ts.sequences = (if normalize && sequences.length > 1
      then temporalseqarr_normalize sequences else sequences)) ∧
      ts.count = ts.sequences.length := by
  match sequences with
  | [] => simp [temporals_make] at h
  | s0 :: rest =>
    rw [temporals_make] at h
    cases hc : make_check (s0.valuetypid.isGeo) s0 rest with
    | error e => rw [hc] at h; simp [Bind.bind, Except.bind] at h
    | ok u =>
      cases u
      rw [hc] at h
      simp only [Bind.bind, Except.bind, Except.ok.injEq] at h
      subst h
      exact ⟨rfl, rfl⟩

theorem temporals_make_check_ok {s0 : TemporalSeq} {rest : List TemporalSeq}
    {normalize : Bool} {ts : TemporalS}
    (h : temporals_make (s0 :: rest) normalize = .ok ts) :
    make_check s0.valuetypid.isGeo s0 rest = .ok () := by
  rw [temporals_make] at h
  cases hc : make_check s0.valuetypid.isGeo s0 rest with
  | error e => rw [hc] at h; simp [Bind.bind, Except.bind] at h
  | ok u => cases u; rfl

theorem temporals_make_error_iff_aux (s0 : TemporalSeq) (rest : List TemporalSeq)
    (normalize : Bool) :
    (∃ e, temporals_make (s0 :: rest) normalize = .error e) ↔
      pairs_okb s0.valuetypid.isGeo (s0 :: rest) = false := by
  rw [temporals_make]
  cases hc : make_check s0.valuetypid.isGeo s0 rest with
  | error e =>
    simp only [hc, Bind.bind, Except.bind]
    constructor
    · intro _
      rw [← Bool.not_eq_true, ← make_check_ok_iff _ s0 rest]
      simp [hc]
    · exact fun _ => ⟨e, rfl⟩
  | ok u =>
    cases u
    simp only [hc, Bind.bind, Except.bind]
    constructor
    · rintro ⟨e, he⟩
      exact absurd he (by simp)
    · intro hp
      rw [make_check_ok_iff] at hc
      rw [hc] at hp
      exact absurd hp (by simp)

theorem pair_checkb_false_iff {isgeo : Bool} {a b : TemporalSeq} :
    pair_checkb isgeo a b = false ↔
      broken_order a.period b.period = true ∨
        (isgeo = true ∧ (a.srid ≠ b.srid ∨ a.hasZ ≠ b.hasZ)) := by
  unfold pair_checkb
  cases hb : broken_order a.period b.period <;> cases hg : isgeo <;> simp <;> tauto

theorem pairs_okb_false_iff (isgeo : Bool) (l : List TemporalSeq) :
    pairs_okb isgeo l = false ↔
      ∃ i, i + 1 < l.length ∧
        pair_checkb isgeo (l.getD i default) (l.getD (i+1) default) = false := by
  rw [← Bool.not_eq_true, pairs_okb_iff_forall]
  push_neg
  constructor
  · rintro ⟨i, hi, hp⟩
    exact ⟨i, hi, by simp only [Bool.not_eq_true] at hp; exact hp⟩
  · rintro ⟨i, hi, hp⟩
    exact ⟨i, hi, by simp only [Bool.not_eq_true]; exact hp⟩

theorem pairs_okb_sorted {isgeo : Bool} {l : List TemporalSeq}
    (h : pairs_okb isgeo l = true) : seqs_sorted l = true := by
  induction l with
  | nil => rfl
  | cons a rest ih =>
    cases rest with
    | nil => rfl
    | cons b r2 =>
      rw [pairs_okb, Bool.and_eq_true] at h
      rw [seqs_sorted, Bool.and_eq_true]
      refine ⟨?_, ih h.2⟩
      have := h.1
      unfold pair_checkb at this
      rw [Bool.and_eq_true] at this
      exact this.1

theorem seqs_sorted_iff_forall (l : List TemporalSeq) :
    seqs_sorted l = true ↔ ∀ i, i + 1 < l.length →
      broken_order (l.getD i default).period (l.getD (i+1) default).period = false := by
  rw [seqs_sorted_eq_pairs, pairs_okb_iff_forall]
  constructor
  · intro h i hi
    have hx := h i hi
    unfold pair_checkb at hx
    rw [Bool.and_eq_true] at hx
    have := hx.1
    rwa [Bool.not_eq_eq_eq_not] at this
  · intro h i hi
    have hx := h i hi
    unfold pair_checkb
    rw [hx]
    simp

/-- C1: the builder `temporals_make` raises a construction error exactly when
some consecutive pair of input sequences violates the ordering rule
(decreasing, or touching with both bounds inclusive) or, for spatial values,
differs in spatial reference or dimensionality; consequently every
successfully constructed sequence set satisfies, on every adjacent pair of
its sequences, `period[i].upper < period[i+1].lower` or the periods touch
with at most one side inclusive. -/
theorem temporals_make_spec_C1 (sequences : List TemporalSeq) (normalize : Bool)
    (hne : sequences ≠ []) :
    ((∃ e, temporals_make sequences normalize = .error e) ↔
      ∃ i, i + 1 < sequences.length ∧
        (broken_order (sequences.getD i default).period
            (sequences.getD (i+1) default).period = true ∨
          ((sequences.getD 0 default).valuetypid.isGeo = true ∧
            ((sequences.getD i default).srid ≠ (sequences.getD (i+1) default).srid ∨
              (sequences.getD i default).hasZ ≠ (sequences.getD (i+1) default).hasZ)))) ∧
    (∀ ts, temporals_make sequences normalize = .ok ts →
      ∀ i, i + 1 < ts.count → pair_ordered (periodN ts i) (periodN ts (i+1))) := by
  match sequences with
  | [] => exact absurd rfl hne
  | s0 :: rest =>
    constructor
    · rw [temporals_make_error_iff_aux, pairs_okb_false_iff]
      refine exists_congr fun i => and_congr_right fun hi => ?_
      rw [pair_checkb_false_iff]
      simp only [List.getD_cons_zero]
    · intro ts h i hi
      obtain ⟨hseq, hcnt⟩ := temporals_make_sequences h
      have hchk := temporals_make_check_ok h
      rw [make_check_ok_iff] at hchk
      have hsorted : seqs_sorted ts.sequences = true := by
        rw [hseq]
        by_cases hn : (normalize && (s0 :: rest).length > 1) = true
        · rw [if_pos hn]
          have := pairs_okb_sorted hchk
          unfold temporalseqarr_normalize
          exact normalize_go_sorted s0 rest this
        · rw [if_neg hn]
          exact pairs_okb_sorted hchk
      rw [hcnt] at hi
      rw [pair_ordered_iff_not_broken]
      exact (seqs_sorted_iff_forall ts.sequences).mp hsorted i hi

/-- A stepwise integer test sequence with the given instants and period. -/
def mkIntSeq (instants : List TInst) (p : Period) : TemporalSeq :=
  { instants := instants
    period := p
    valuetypid := Typid.tint
    linear := false
    srid := 0
    hasZ := false
    geodetic := false }

/-- Witness for C1: a two-sequence input whose pair is broken (second starts
before the first ends) makes the builder raise a construction error. -/
theorem temporals_make_spec_C1_witness :
    ∃ e, temporals_make
      [mkIntSeq [⟨1, 0⟩, ⟨1, 5⟩] ⟨0, 5, true, true⟩,
        mkIntSeq [⟨1, 2⟩, ⟨1, 7⟩] ⟨2, 7, true, true⟩] false = .error e :=
  (temporals_make_spec_C1 _ false (by simp)).1.mpr
    ⟨0, by simp, Or.inl (by decide)⟩

/-! ## Timestamp locator -/

/-- The binary-search loop of `temporals_find_timestamp` (temporals.c:442-455),
fuel-indexed.  `last1` stands for the C variable `last + 1`, so that the C
loop condition `first <= last` becomes `first < last1` and `last = middle - 1`
becomes `last1 = middle`.  The C variables `middle`/`seq` that survive the
loop for the post-loop adjustment (temporals.c:456-458) are threaded through
as the `middle` argument. -/
def find_loop (ts : TemporalS) (t : ℚ) : Nat → Nat → Nat → Nat → Bool × Nat
  | 0, _, _, middle => (false, middle)
  | fuel+1, first, last1, middle =>
    if first < last1 then
      let m := (first + last1 - 1) / 2
      let p := periodN ts m
      if contains_period_timestamp p t then (true, m)
      else if t ≤ p.lower then find_loop ts t fuel first m m
      else find_loop ts t fuel (m+1) last1 m
    else
      let p := periodN ts middle
      if p.upper ≤ t then (false, middle + 1) else (false, middle)

/-- `temporals_find_timestamp` (temporals.c:436-460): binary search for the
sequence containing the timestamp, returning the gap index on failure. -/
def temporals_find_timestamp (ts : TemporalS) (t : ℚ) : Bool × Nat :=
  find_loop ts t (ts.count + 1) 0 ts.count 0

/-- The timestamp lies strictly before the period (before its start cut). -/
def strict_before (t : ℚ) (p : Period) : Prop := cutLT (tCut t) (sCut p)

/-- The timestamp lies strictly after the period (after its end cut). -/
def strict_after (p : Period) (t : ℚ) : Prop := cutLT (eCut p) (tCut t)

theorem not_contains_of_strict_before {t : ℚ} {p : Period} (h : strict_before t p) :
    contains_period_timestamp p t = false := by
  rw [← Bool.not_eq_true, contains_iff_cut]
  rintro ⟨h1, _⟩
  exact not_cutLE_of_LT h h1

theorem not_contains_of_strict_after {t : ℚ} {p : Period} (h : strict_after p t) :
    contains_period_timestamp p t = false := by
  rw [← Bool.not_eq_true, contains_iff_cut]
  rintro ⟨_, h2⟩
  exact not_cutLE_of_LT h h2

theorem strict_before_of_failed_left {t : ℚ} {p : Period} (hv : period_valid p = true)
    (hnc : contains_period_timestamp p t = false) (hle : t ≤ p.lower) :
    strict_before t p := by
  rcases lt_or_eq_of_le hle with hlt | heq
  · exact Or.inl hlt
  · unfold strict_before cutLT tCut sCut
    cases hl : p.lower_inc
    · exact Or.inr ⟨heq, by simp⟩
    · exfalso
      unfold contains_period_timestamp at hnc
      rw [Bool.and_eq_false_iff] at hnc
      rcases hnc with hnc | hnc
      · simp only [Bool.or_eq_false_iff, Bool.and_eq_false_iff,
          decide_eq_false_iff_not, not_lt] at hnc
        rcases hnc.2 with hne | hfl
        · exact hne heq.symm
        · rw [hl] at hfl
          simp at hfl
      · simp only [Bool.or_eq_false_iff, Bool.and_eq_false_iff,
          decide_eq_false_iff_not, not_lt] at hnc
        have hup : p.upper ≤ t := hnc.1
        unfold period_valid at hv
        simp only [Bool.or_eq_true, Bool.and_eq_true, decide_eq_true_eq] at hv
        rcases hv with hlu | ⟨⟨hlu, hlinc⟩, hui⟩
        · exact absurd hlu (not_lt_of_ge (heq ▸ hup))
        · rcases hnc.2 with hne | hfu
          · exact hne (heq.trans hlu)
          · rw [hui] at hfu
            simp at hfu

theorem strict_after_of_failed_right {t : ℚ} {p : Period}
    (hnc : contains_period_timestamp p t = false) (hgt : p.lower < t) :
    strict_after p t := by
  unfold contains_period_timestamp at hnc
  rw [Bool.and_eq_false_iff] at hnc
  rcases hnc with hnc | hnc
  · simp only [Bool.or_eq_false_iff, decide_eq_false_iff_not, not_lt] at hnc
    exact absurd hgt (not_lt_of_ge hnc.1)
  · simp only [Bool.or_eq_false_iff, Bool.and_eq_false_iff,
      decide_eq_false_iff_not, not_lt] at hnc
    rcases lt_or_eq_of_le hnc.1 with hlt | heq
    · exact Or.inl hlt
    · rcases hnc.2 with hne | hfu
      · exact absurd heq.symm hne
      · unfold strict_after cutLT
        refine Or.inr ⟨?_, ?_⟩
        · simp [eCut, tCut, heq]
        · simp [eCut, tCut, hfu]

theorem lt_upper_of_strict_before {t : ℚ} {p : Period} (hv : period_valid p = true)
    (h : strict_before t p) : t < p.upper := by
  have hc := valid_iff_cut.mp hv
  have := cutLT_of_LT_of_LE h hc
  unfold cutLT tCut eCut at this
  rcases this with h2 | ⟨h2, hr⟩
  · exact h2
  · exfalso
    cases hu : p.upper_inc <;> rw [hu] at hr <;> omega

theorem upper_le_of_strict_after {t : ℚ} {p : Period} (h : strict_after p t) :
    p.upper ≤ t := by
  unfold strict_after cutLT eCut tCut at h
  rcases h with h | ⟨h, _⟩
  · exact le_of_lt h
  · exact le_of_eq h

theorem le_lower_of_strict_before {t : ℚ} {p : Period} (h : strict_before t p) :
    t ≤ p.lower := by
  unfold strict_before cutLT tCut sCut at h
  rcases h with h | ⟨h, _⟩
  · exact le_of_lt h
  · exact le_of_eq h

theorem valid_ts_count_eq {ts : TemporalS} (hv : valid_ts ts) :
    ts.count = ts.sequences.length := hv.2.1

theorem valid_ts_count_pos {ts : TemporalS} (hv : valid_ts ts) : 0 < ts.count := by
  rw [valid_ts_count_eq hv]
  cases h : ts.sequences with
  | nil => exact absurd h hv.1
  | cons a l => simp

theorem periodN_valid {ts : TemporalS} (hv : valid_ts ts) {i : Nat} (hi : i < ts.count) :
    period_valid (periodN ts i) = true := by
  have hlen : i < ts.sequences.length := by
    rw [← valid_ts_count_eq hv]; exact hi
  have hmem : ts.sequences.getD i default ∈ ts.sequences := by
    rw [List.getD_eq_getElem ts.sequences default hlen]
    exact List.getElem_mem hlen
  have := hv.2.2.2.1 _ hmem
  unfold seq_valid at this
  rw [Bool.and_eq_true] at this
  exact this.2

theorem sorted_cut_adjacent {ts : TemporalS} (hv : valid_ts ts) {k : Nat}
    (hk : k + 1 < ts.count) :
    cutLT (eCut (periodN ts k)) (sCut (periodN ts (k+1))) := by
  have hs := hv.2.2.2.2.1
  have hlen : k + 1 < ts.sequences.length := by rw [← valid_ts_count_eq hv]; exact hk
  have := (seqs_sorted_iff_forall ts.sequences).mp hs k hlen
  exact not_broken_iff_cut.mp this

theorem sorted_cut_chain {ts : TemporalS} (hv : valid_ts ts) :
    ∀ i j, i < j → j < ts.count → cutLT (eCut (periodN ts i)) (sCut (periodN ts j)) := by
  intro i j
  induction j with
  | zero => omega
  | succ k ih =>
    intro hij hj
    rcases Nat.lt_or_ge i k with h | h
    · have hk : k < ts.count := by omega
      have c1 := ih h hk
      have c2 := sorted_cut_adjacent hv hj
      have cv := valid_iff_cut.mp (periodN_valid hv hk)
      exact cutLT_trans (cutLT_of_LT_of_LE c1 cv) c2
    · have : i = k := by omega
      subst this
      exact sorted_cut_adjacent hv hj

theorem strict_after_mono {ts : TemporalS} (hv : valid_ts ts) {t : ℚ} {i j : Nat}
    (hij : j < i) (hi : i < ts.count) (h : strict_after (periodN ts i) t) :
    strict_after (periodN ts j) t := by
  have hc := sorted_cut_chain hv j i hij hi
  have cv := valid_iff_cut.mp (periodN_valid hv hi)
  exact cutLT_trans (cutLT_of_LT_of_LE hc cv) h

theorem strict_before_mono {ts : TemporalS} (hv : valid_ts ts) {t : ℚ} {i j : Nat}
    (hij : i < j) (hj : j < ts.count) (hi : i < ts.count)
    (h : strict_before t (periodN ts i)) :
    strict_before t (periodN ts j) := by
  have hc := sorted_cut_chain hv i j hij hj
  have cv := valid_iff_cut.mp (periodN_valid hv hi)
  exact cutLT_trans (cutLT_of_LT_of_LE h cv) hc

theorem find_loop_go (ts : TemporalS) (hv : valid_ts ts) (t : ℚ) :
    ∀ fuel first last1 middle,
      last1 - first < fuel →
      last1 ≤ ts.count →
      (∀ i, i < first → i < ts.count → strict_after (periodN ts i) t) →
      (∀ i, last1 ≤ i → i < ts.count → strict_before t (periodN ts i)) →
      (first < last1 ∨
        (middle < ts.count ∧
          ((strict_before t (periodN ts middle) ∧ middle = first) ∨
            (strict_after (periodN ts middle) t ∧ middle + 1 = first)))) →
      ((find_loop ts t fuel first last1 middle).1 = true ∧
          (find_loop ts t fuel first last1 middle).2 < ts.count ∧
          contains_period_timestamp (periodN ts (find_loop ts t fuel first last1 middle).2) t
            = true) ∨
        ((find_loop ts t fuel first last1 middle).1 = false ∧
          (find_loop ts t fuel first last1 middle).2 ≤ ts.count ∧
          (∀ i, i < (find_loop ts t fuel first last1 middle).2 → i < ts.count →
            strict_after (periodN ts i) t) ∧
          (∀ i, (find_loop ts t fuel first last1 middle).2 ≤ i → i < ts.count →
            strict_before t (periodN ts i))) := by
  intro fuel
  induction fuel with
  | zero => intro first last1 middle hfuel; omega
  | succ fuel ih =>
    intro first last1 middle hfuel hlast h1 h2 hinv
    rw [find_loop]
    by_cases hfl : first < last1
    · rw [if_pos hfl]
      have hm1 : first ≤ (first + last1 - 1) / 2 :=
        Nat.le_div_iff_mul_le (by norm_num) |>.mpr (by omega)
      have hm2 : (first + last1 - 1) / 2 < last1 :=
        Nat.div_lt_iff_lt_mul (by norm_num) |>.mpr (by omega)
      set m := (first + last1 - 1) / 2 with hm
      have hmc : m < ts.count := lt_of_lt_of_le hm2 hlast
      by_cases hcont : contains_period_timestamp (periodN ts m) t = true
      · rw [if_pos hcont]
        exact Or.inl ⟨rfl, hmc, hcont⟩
      · rw [if_neg hcont]
        rw [Bool.not_eq_true] at hcont
        by_cases hle : t ≤ (periodN ts m).lower
        · rw [if_pos hle]
          have hsb : strict_before t (periodN ts m) :=
            strict_before_of_failed_left (periodN_valid hv hmc) hcont hle
          have h2n : ∀ i, m ≤ i → i < ts.count → strict_before t (periodN ts i) := by
            intro i hmi hic
            rcases lt_or_eq_of_le hmi with hlt | heq
            · exact strict_before_mono hv hlt hic hmc hsb
            · exact heq ▸ hsb
          refine ih first m m (by omega) (le_of_lt hmc) h1 h2n ?_
          rcases Nat.lt_or_ge first m with hx | hx
          · exact Or.inl hx
          · exact Or.inr ⟨hmc, Or.inl ⟨hsb, by omega⟩⟩
        · rw [if_neg hle]
          push_neg at hle
          have hsa : strict_after (periodN ts m) t :=
            strict_after_of_failed_right hcont hle
          have h1n : ∀ i, i < m + 1 → i < ts.count → strict_after (periodN ts i) t := by
            intro i hmi hic
            rcases Nat.lt_or_ge i m with hlt | hge
            · exact strict_after_mono hv hlt hmc hsa
            · have : i = m := by omega
              exact this ▸ hsa
          exact ih (m+1) last1 m (by omega) hlast h1n h2 (Or.inr ⟨hmc, Or.inr ⟨hsa, rfl⟩⟩)
    · rw [if_neg hfl]
      push_neg at hfl
      rcases hinv with hx | ⟨hmc, hcase⟩
      · omega
      · rcases hcase with ⟨hsb, hmf⟩ | ⟨hsa, hmf⟩
        · have hnu : ¬ ((periodN ts middle).upper ≤ t) :=
            not_le_of_gt (lt_upper_of_strict_before (periodN_valid hv hmc) hsb)
          rw [if_neg hnu]
          refine Or.inr ⟨rfl, le_of_lt hmc, ?_, ?_⟩
          · intro i hi hic
            exact h1 i (by omega) hic
          · intro i hi hic
            rcases lt_or_eq_of_le hi with hlt | heq
            · exact h2 i (by omega) hic
            · exact heq ▸ hsb
        · have hu : (periodN ts middle).upper ≤ t := upper_le_of_strict_after hsa
          rw [if_pos hu]
          refine Or.inr ⟨rfl, by omega, ?_, ?_⟩
          · intro i hi hic
            rcases Nat.lt_or_ge i middle with hlt | hge
            · exact h1 i (by omega) hic
            · have : i = middle := by omega
              exact this ▸ hsa
          · intro i hi hic
            exact h2 i (by omega) hic

theorem find_timestamp_cases (ts : TemporalS) (hv : valid_ts ts) (t : ℚ) :
    ((temporals_find_timestamp ts t).1 = true ∧
        (temporals_find_timestamp ts t).2 < ts.count ∧
        contains_period_timestamp (periodN ts (temporals_find_timestamp ts t).2) t = true) ∨
      ((temporals_find_timestamp ts t).1 = false ∧
        (temporals_find_timestamp ts t).2 ≤ ts.count ∧
        (∀ i, i < (temporals_find_timestamp ts t).2 → i < ts.count →
          strict_after (periodN ts i) t) ∧
        (∀ i, (temporals_find_timestamp ts t).2 ≤ i → i < ts.count →
          strict_before t (periodN ts i))) :=
  find_loop_go ts hv t (ts.count + 1) 0 ts.count 0 (by omega) (le_refl _)
    (by intro i hi hic; exact absurd hi (Nat.not_lt_zero i))
    (by intro i hi hic; omega)
    (Or.inl (valid_ts_count_pos hv))

theorem find_timestamp_found_iff (ts : TemporalS) (hv : valid_ts ts) (t : ℚ) :
    (temporals_find_timestamp ts t).1 = true ↔
      ∃ i, i < ts.count ∧ contains_period_timestamp (periodN ts i) t = true := by
  rcases find_timestamp_cases ts hv t with ⟨hf, hc, hcont⟩ | ⟨hf, _, hA, hB⟩
  · exact ⟨fun _ => ⟨_, hc, hcont⟩, fun _ => hf⟩
  · rw [hf]
    constructor
    · intro h
      simp at h
    · rintro ⟨i, hic, hcont⟩
      rcases Nat.lt_or_ge i (temporals_find_timestamp ts t).2 with h | h
      · rw [not_contains_of_strict_after (hA i h hic)] at hcont
        simp at hcont
      · rw [not_contains_of_strict_before (hB i h hic)] at hcont
        simp at hcont

/-- C2: correctness of the locator `temporals_find_timestamp`: it reports
`found = true` exactly when some sequence's period contains the timestamp
(with that sequence's own bound inclusivity), returning that sequence's
index; on failure it returns the insertion gap index, which is clamped to
`[0, count]` and satisfies `period[i].upper ≤ t` for every sequence before
the gap and `t ≤ period[i].lower` for every sequence from the gap onwards
(hence `0` when `t` precedes all sequences and `count` when it follows
all). -/
theorem temporals_find_timestamp_spec_C2 (ts : TemporalS) (hv : valid_ts ts) (t : ℚ) :
    ((temporals_find_timestamp ts t).1 = true ↔
      ∃ i, i < ts.count ∧ contains_period_timestamp (periodN ts i) t = true) ∧
    ((temporals_find_timestamp ts t).1 = true →
      (temporals_find_timestamp ts t).2 < ts.count ∧
      contains_period_timestamp (periodN ts (temporals_find_timestamp ts t).2) t = true) ∧
    ((temporals_find_timestamp ts t).1 = false →
      (temporals_find_timestamp ts t).2 ≤ ts.count ∧
      (∀ i, i < ts.count → contains_period_timestamp (periodN ts i) t = false) ∧
      (∀ i, i < (temporals_find_timestamp ts t).2 → (periodN ts i).upper ≤ t) ∧
      (∀ i, (temporals_find_timestamp ts t).2 ≤ i → i < ts.count →
        t ≤ (periodN ts i).lower)) := by
  refine ⟨find_timestamp_found_iff ts hv t, ?_, ?_⟩
  · intro hf
    rcases find_timestamp_cases ts hv t with ⟨_, hc, hcont⟩ | ⟨hff, _⟩
    · exact ⟨hc, hcont⟩
    · rw [hf] at hff
      simp at hff
  · intro hf
    rcases find_timestamp_cases ts hv t with ⟨hff, _⟩ | ⟨_, hle, hA, hB⟩
    · rw [hf] at hff
      simp at hff
    · refine ⟨hle, ?_, ?_, ?_⟩
      · intro i hic
        rcases Nat.lt_or_ge i (temporals_find_timestamp ts t).2 with h | h
        · exact not_contains_of_strict_after (hA i h hic)
        · exact not_contains_of_strict_before (hB i h hic)
      · intro i hi
        exact upper_le_of_strict_after (hA i hi (by omega))
      · intro i hi hic
        exact le_lower_of_strict_before (hB i hi hic)

/-- A concrete valid set with two integer sequences over `[0,1)` and `[2,3)`. -/
def exSeq1 : TemporalSeq := mkIntSeq [⟨1, 0⟩, ⟨1, 1⟩] ⟨0, 1, true, false⟩

/-- The second sequence of the concrete set: `[2,3)`. -/
def exSeq2 : TemporalSeq := mkIntSeq [⟨1, 2⟩, ⟨1, 3⟩] ⟨2, 3, true, false⟩

/-- The concrete sequence set `{[0,1), [2,3)}` with a gap over `[1,2)`. -/
def exTS : TemporalS :=
  { sequences := [exSeq1, exSeq2]
    count := 2
    totalcount := 4
    valuetypid := Typid.tint
    linear := false
    hasZ := false
    geodetic := false
    bbox := temporals_make_bbox [exSeq1, exSeq2] }

/-- Witness for C2 at the concrete set and the gap timestamp `1`. -/
theorem temporals_find_timestamp_spec_C2_witness :
    ((temporals_find_timestamp exTS 1).1 = true ↔
      ∃ i, i < exTS.count ∧ contains_period_timestamp (periodN exTS i) 1 = true) ∧
    ((temporals_find_timestamp exTS 1).1 = true →
      (temporals_find_timestamp exTS 1).2 < exTS.count ∧
      contains_period_timestamp (periodN exTS (temporals_find_timestamp exTS 1).2) 1 = true) ∧
    ((temporals_find_timestamp exTS 1).1 = false →
      (temporals_find_timestamp exTS 1).2 ≤ exTS.count ∧
      (∀ i, i < exTS.count → contains_period_timestamp (periodN exTS i) 1 = false) ∧
      (∀ i, i < (temporals_find_timestamp exTS 1).2 → (periodN exTS i).upper ≤ 1) ∧
      (∀ i, (temporals_find_timestamp exTS 1).2 ≤ i → i < exTS.count →
        (1 : ℚ) ≤ (periodN exTS i).lower)) :=
  temporals_find_timestamp_spec_C2 exTS (by decide) 1

/-! ## Intersects predicates -/

/-- `temporals_intersects_timestamp` (temporals.c:2328-2335): returns `false`
when the locator finds the timestamp and `true` when it does not — i.e. the
negation of time containment. -/
def temporals_intersects_timestamp (ts : TemporalS) (t : ℚ) : Bool :=
  if (temporals_find_timestamp ts t).1 then false else true

/-- `temporals_intersects_timestampset` (temporals.c:2340-2347): true when
the predicate above holds of some member of the timestamp set. -/
def temporals_intersects_timestampset (ts : TemporalS) (tset : List ℚ) : Bool :=
  tset.any (fun t => temporals_intersects_timestamp ts t)

/-- C9: `temporals_intersects_timestamp` returns exactly the negation of the
locator's containment result: it is true when `t` is NOT covered by any
sequence's period; consequently `temporals_intersects_timestampset` is true
exactly when some member of the timestamp set lies outside every sequence. -/
theorem temporals_intersects_timestamp_spec_C9 (ts : TemporalS) (hv : valid_ts ts) :
    (∀ t, temporals_intersects_timestamp ts t = !(temporals_find_timestamp ts t).1) ∧
    (∀ t, temporals_intersects_timestamp ts t = true ↔
      ¬ ∃ i, i < ts.count ∧ contains_period_timestamp (periodN ts i) t = true) ∧
    (∀ tset : List ℚ, temporals_intersects_timestampset ts tset = true ↔
      ∃ t ∈ tset,
        ¬ ∃ i, i < ts.count ∧ contains_period_timestamp (periodN ts i) t = true) := by
  have hneg : ∀ t, temporals_intersects_timestamp ts t = !(temporals_find_timestamp ts t).1 := by
    intro t
    unfold temporals_intersects_timestamp
    cases h : (temporals_find_timestamp ts t).1 <;> simp [h]
  have hiff : ∀ t, temporals_intersects_timestamp ts t = true ↔
      ¬ ∃ i, i < ts.count ∧ contains_period_timestamp (periodN ts i) t = true := by
    intro t
    rw [hneg t, Bool.not_eq_eq_eq_not, Bool.not_true, ← find_timestamp_found_iff ts hv t]
    constructor
    · intro h
      rw [h]
      simp
    · intro h
      rwa [Bool.not_eq_true] at h
  refine ⟨hneg, hiff, fun tset => ?_⟩
  unfold temporals_intersects_timestampset
  rw [List.any_eq_true]
  exact ⟨fun ⟨t, htm, hp⟩ => ⟨t, htm, (hiff t).mp hp⟩,
    fun ⟨t, htm, hp⟩ => ⟨t, htm, (hiff t).mpr hp⟩⟩

/-- Witness for C9 at the concrete two-sequence set. -/
theorem temporals_intersects_timestamp_spec_C9_witness :
    (∀ t, temporals_intersects_timestamp exTS t = !(temporals_find_timestamp exTS t).1) ∧
    (∀ t, temporals_intersects_timestamp exTS t = true ↔
      ¬ ∃ i, i < exTS.count ∧ contains_period_timestamp (periodN exTS i) t = true) ∧
    (∀ tset : List ℚ, temporals_intersects_timestampset exTS tset = true ↔
      ∃ t ∈ tset,
        ¬ ∃ i, i < exTS.count ∧ contains_period_timestamp (periodN exTS i) t = true) :=
  temporals_intersects_timestamp_spec_C9 exTS (by decide)

/-- The scan loop of `temporals_intersects_period` (temporals.c:2361-2368),
fuel-indexed; the `break` of the C loop returns false. -/
def intersects_period_loop (ts : TemporalS) (p : Period) : Nat → Nat → Bool
  | 0, _ => false
  | fuel+1, i =>
    if i < ts.count then
      let sp := periodN ts i
      if overlaps_period_period sp p then true
      else if p.upper < sp.upper then false
      else intersects_period_loop ts p fuel (i+1)
    else false

/-- `temporals_intersects_period` (temporals.c:2352-2370): true when the
locator finds the raw endpoint `p->lower` or `p->upper` in some sequence
(regardless of `p`'s own bound inclusivity), else a scan from the lower
gap index testing period overlap. -/
def temporals_intersects_period (ts : TemporalS) (p : Period) : Bool :=
  if (temporals_find_timestamp ts p.lower).1 || (temporals_find_timestamp ts p.upper).1 then
    true
  else
    intersects_period_loop ts p (ts.count + 1) (temporals_find_timestamp ts p.lower).2

/-- C4 (code bug): the builder applied to the two gap-separated sequences
`[0,1)` and `[2,3)` yields `count = 2` (as the spec's scenario says), but
`temporals_intersects_period` on the gap period `[1,2)` returns `true`,
although no timestamp satisfying the gap period's bound inclusivities is
covered by any sequence: the code tests raw containment of the period's
endpoint timestamps — here `p.upper = 2`, which lies in `[2,3)` — ignoring
that `p`'s upper bound is exclusive. -/
theorem temporals_intersects_period_bug_C4 :
    temporals_make [exSeq1, exSeq2] false = .ok exTS ∧
    exTS.count = 2 ∧
    temporals_intersects_period exTS ⟨1, 2, true, false⟩ = true ∧
    ¬ ∃ t : ℚ, contains_period_timestamp ⟨1, 2, true, false⟩ t = true ∧
      ∃ i, i < exTS.count ∧ contains_period_timestamp (periodN exTS i) t = true := by
  refine ⟨by decide, by decide, by decide, ?_⟩
  rintro ⟨t, hp, i, hi, hc⟩
  have hi2 : i < 2 := hi
  unfold contains_period_timestamp at hp hc
  simp only [Bool.and_eq_true, Bool.or_eq_true, decide_eq_true_eq] at hp hc
  have ht1 : 1 ≤ t := by
    rcases hp.1 with h | ⟨h, _⟩ <;> linarith
  have ht2 : t < 2 := by
    rcases hp.2 with h | ⟨h, hfalse⟩
    · exact h
    · simp at hfalse
  interval_cases i
  · simp only [periodN, temporals_seq_n, exTS, exSeq1, mkIntSeq, List.getD_cons_zero] at hc
    rcases hc.2 with h | ⟨h, hfalse⟩
    · linarith
    · simp at hfalse
  · simp only [periodN, temporals_seq_n, exTS, exSeq2, mkIntSeq, List.getD_cons_succ,
      List.getD_cons_zero] at hc
    rcases hc.1 with h | ⟨h, _⟩ <;> linarith

/-! ## Restriction by period: `minus_period` -/

/-- `temporals_get_time` (temporals.c:1160-1172): the period set (list of
periods, already disjoint and sorted) on which the value is defined. -/
def temporals_get_time (ts : TemporalS) : List Period :=
  ts.sequences.map (fun s => s.period)

/-- Modelled from the spec: subtraction of one period from another
(`minus_period_period` of `periodset.c`): zero, one or two pieces. -/
def period_minus_period (p q : Period) : List Period :=
  if overlaps_period_period p q = false then [p]
  else
    (if decide (p.lower < q.lower) ||
        (decide (p.lower = q.lower) && p.lower_inc && !q.lower_inc) then
      [⟨p.lower, q.lower, p.lower_inc, !q.lower_inc⟩]
    else []) ++
    (if decide (q.upper < p.upper) ||
        (decide (q.upper = p.upper) && !q.upper_inc && p.upper_inc) then
      [⟨q.upper, p.upper, !q.upper_inc, p.upper_inc⟩]
    else [])

/-- Modelled from the spec: `minus_periodset_period_internal` of
`periodset.c` — subtract the period from every member period; an empty
outcome is reported as `NULL` (`none`), per the codebase's convention that
empty restriction results are "no such value". -/
def minus_periodset_period (ps : List Period) (p : Period) : Option (List Period) :=
  let r := (ps.map (fun q => period_minus_period q p)).flatten
  if r.isEmpty then none else some r

/-- Modelled from the spec: `periodset_bbox` — the bounding period of a
period set, from the first and last member. -/
def periodset_bbox (ps : List Period) : Period :=
  ⟨(ps.getD 0 default).lower, (ps.getD (ps.length - 1) default).upper,
    (ps.getD 0 default).lower_inc, (ps.getD (ps.length - 1) default).upper_inc⟩

/-- Modelled from the spec: `periodset_find_timestamp` of `periodset.c` —
locate a timestamp among the disjoint sorted periods, or its insertion gap. -/
def periodset_find_timestamp (ps : List Period) (t : ℚ) : Bool × Nat :=
  let rec go : List Period → Nat → Bool × Nat
    | [], i => (false, i)
    | p :: rest, i =>
      if contains_period_timestamp p t then (true, i)
      else if t ≤ p.lower then (false, i)
      else go rest (i+1)
  go ps 0

/-- Modelled from the spec: `temporalseq_at_period` of the Sequence
collaborator — the restriction of one sequence to a period, `NULL` when they
do not overlap; the fragment's period is the intersection. -/
def temporalseq_at_period (s : TemporalSeq) (p : Period) : Option TemporalSeq :=
  if overlaps_period_period s.period p then
    some { s with
      period := period_inter s.period p
      instants := s.instants.filter
        (fun i => contains_period_timestamp (period_inter s.period p) i.t) }
  else none

/-- Modelled from the spec: `temporalseq_at_periodset` of the Sequence
collaborator — restrict one sequence to a period set, `NULL` when empty. -/
def temporalseq_at_periodset (s : TemporalSeq) (ps : List Period) : Option TemporalS :=
  match ps.filterMap (fun p => temporalseq_at_period s p) with
  | [] => none
  | f :: r => some (build_ts (f :: r) f f.valuetypid.isGeo)

/-- Modelled from the spec: `temporalseq_minus_period` of the Sequence
collaborator — restrict one sequence to the complement of a period. -/
def temporalseq_minus_period (s : TemporalSeq) (p : Period) : Option TemporalS :=
  match (period_minus_period s.period p).map
      (fun q =>
        { s with
          period := q
          instants := s.instants.filter (fun i => contains_period_timestamp q i.t) }) with
  | [] => none
  | f :: r => some (build_ts (f :: r) f f.valuetypid.isGeo)

/-- The merge loop of `temporals_at_periodset` (temporals.c:2244-2260),
fuel-indexed over the two cursors. -/
def at_periodset_loop (ts : TemporalS) (ps : List Period) : Nat → Nat → Nat → List TemporalSeq
  | 0, _, _ => []
  | fuel+1, i, j =>
    if i < ts.count ∧ j < ps.length then
      let seq := temporals_seq_n ts i
      let p := ps.getD j default
      let cur := match temporalseq_at_period seq p with
        | some s => [s]
        | none => []
      cur ++
        (if seq.period.upper = p.upper ∧ seq.period.upper_inc = p.upper_inc then
          at_periodset_loop ts ps fuel (i+1) (j+1)
        else if seq.period.upper < p.upper ∨
            (seq.period.upper = p.upper ∧ seq.period.upper_inc = false ∧ p.upper_inc = true) then
          at_periodset_loop ts ps fuel (i+1) j
        else at_periodset_loop ts ps fuel i (j+1))
    else []

/-- `temporals_at_periodset` (temporals.c:2223-2264): bounding test, then a
merge-join of the sequences against the periods, rebuilt without
normalization. -/
def temporals_at_periodset (ts : TemporalS) (ps : List Period) :
    Except CErr (Option TemporalS) :=
  let p1 := temporals_period ts
  let p2 := periodset_bbox ps
  if overlaps_period_period p1 p2 = false then .ok none
  else if ts.count == 1 then .ok (temporalseq_at_periodset (temporals_seq_n ts 0) ps)
  else
    let t := max p1.lower p2.lower
    let loc1 := (temporals_find_timestamp ts t).2
    let loc2 := (periodset_find_timestamp ps t).2
    temporals_make_free (at_periodset_loop ts ps (ts.count + ps.length + 1) loc1 loc2) false

/-- `temporals_minus_period` (temporals.c:2195-2218): bounding test, then the
complement computed through the period-set complement; the C code then calls
`pfree` on the complement period set UNCONDITIONALLY — when the complement is
empty (`NULL`), `pfree(NULL)` dereferences a null pointer, modelled as the
`pfreeNull` error. -/
def temporals_minus_period (ts : TemporalS) (p : Period) : Except CErr (Option TemporalS) :=
  let p1 := temporals_period ts
  if overlaps_period_period p1 p = false then .ok (some (temporals_copy ts))
  else if ts.count == 1 then .ok (temporalseq_minus_period (temporals_seq_n ts 0) p)
  else
    let ps := temporals_get_time ts
    match minus_periodset_period ps p with
    | none => .error .pfreeNull
    | some rps => temporals_at_periodset ts rps

/-- C5 (code bug): on a valid two-sequence set whose whole time span is
covered by the period, `temporals_minus_period` does not return the valid
absent result: the complement period set is `NULL` and the unconditional
`pfree(resultps)` at temporals.c:2215 dereferences a null pointer (a crash),
contradicting the spec's "empty results are reported as absent, never as an
error". -/
theorem temporals_minus_period_bug_C5 :
    valid_ts exTS ∧
    temporals_minus_period exTS ⟨-1, 4, true, true⟩ = .error .pfreeNull :=
  ⟨by decide, by decide⟩

/-! ## N-th distinct instant / timestamp accessors -/

/-- Modelled from the spec: `temporalinst_eq` — equality of two instants. -/
def temporalinst_eq (a b : TInst) : Bool := a == b

/-- The accumulation loop of `temporals_num_instants` (temporals.c:1249-1268):
sum of per-sequence counts, deduplicating a boundary instant shared with the
previous sequence. -/
def num_instants_loop : List TemporalSeq → Option TInst → Int → Int
  | [], _, result => result
  | seq :: rest, prev, result =>
    let r1 := result + seq.count
    let r2 := match prev with
      | some p => if temporalinst_eq p (temporalseq_inst_n seq 0) then r1 - 1 else r1
      | none => r1
    num_instants_loop rest (some (temporalseq_inst_n seq (seq.count - 1))) r2

/-- `temporals_num_instants` (temporals.c:1249-1268). -/
def temporals_num_instants (ts : TemporalS) : Int :=
  num_instants_loop ts.sequences none 0

/-- The search loop of `temporals_instant_n` (temporals.c:1288-1307). -/
def instant_n_loop (n0 : Int) : List TemporalSeq → Option TInst → Int → Int → Option TInst
  | [], _, _, _ => none
  | seq :: rest, prev, count, prevcount =>
    let c1 := count + seq.count
    let cp := match prev with
      | some p =>
        if temporalinst_eq p (temporalseq_inst_n seq 0) then (c1 - 1, prevcount - 1)
        else (c1, prevcount)
      | none => (c1, prevcount)
    if cp.2 ≤ n0 ∧ n0 < cp.1 then some (temporalseq_inst_n seq (n0 - cp.2).toNat)
    else instant_n_loop n0 rest (some (temporalseq_inst_n seq (seq.count - 1))) cp.1 cp.1

/-- `temporals_instant_n` (temporals.c:1273-1311): note the function OPENS
with `assert(n >= 1 && n <= ts->totalcount)` — an out-of-range ordinal fails
the assertion instead of being reported as absent. -/
def temporals_instant_n (ts : TemporalS) (n : Int) : Except CErr (Option TInst) :=
  if ¬(1 ≤ n ∧ n ≤ ts.totalcount) then .error .assertFail
  else if n == 1 then .ok (some (temporalseq_inst_n (temporals_seq_n ts 0) 0))
  else .ok (instant_n_loop (n - 1) ts.sequences none 0 0)

/-- The accumulation loop of `temporals_num_timestamps`
(temporals.c:1356-1375): like the instants loop but deduplicating by
timestamp only. -/
def num_timestamps_loop : List TemporalSeq → Option ℚ → Int → Int
  | [], _, result => result
  | seq :: rest, prev, result =>
    let r1 := result + seq.count
    let r2 := match prev with
      | some pt => if decide (pt = (temporalseq_inst_n seq 0).t) then r1 - 1 else r1
      | none => r1
    num_timestamps_loop rest (some (temporalseq_inst_n seq (seq.count - 1)).t) r2

/-- `temporals_num_timestamps` (temporals.c:1356-1375). -/
def temporals_num_timestamps (ts : TemporalS) : Int :=
  num_timestamps_loop ts.sequences none 0

/-- The search loop of `temporals_timestamp_n` (temporals.c:1396-1417). -/
def timestamp_n_loop (n0 : Int) : List TemporalSeq → Option ℚ → Int → Int → Option ℚ
  | [], _, _, _ => none
  | seq :: rest, prev, count, prevcount =>
    let c1 := count + seq.count
    let cp := match prev with
      | some pt =>
        if decide (pt = (temporalseq_inst_n seq 0).t) then (c1 - 1, prevcount - 1)
        else (c1, prevcount)
      | none => (c1, prevcount)
    if cp.2 ≤ n0 ∧ n0 < cp.1 then some (temporalseq_inst_n seq (n0 - cp.2).toNat).t
    else timestamp_n_loop n0 rest (some (temporalseq_inst_n seq (seq.count - 1)).t) cp.1 cp.1

/-- `temporals_timestamp_n` (temporals.c:1380-1422): `n < 1` is reported as
absent (`false`), and a too-large `n` falls off the search loop. -/
def temporals_timestamp_n (ts : TemporalS) (n : Int) : Option ℚ :=
  if n < 1 then none
  else if n == 1 then some (temporalseq_inst_n (temporals_seq_n ts 0) 0).t
  else timestamp_n_loop (n - 1) ts.sequences none 0 0

theorem num_timestamps_loop_ge {seqs : List TemporalSeq}
    (hc : ∀ s ∈ seqs, (1 : Int) ≤ s.count) :
    ∀ prev c, c ≤ num_timestamps_loop seqs prev c := by
  induction seqs with
  | nil => intro prev c; exact le_refl c
  | cons seq rest ih =>
    intro prev c
    have hseq : (1 : Int) ≤ seq.count := hc seq (by simp)
    have hrest : ∀ s ∈ rest, (1 : Int) ≤ s.count := fun s hs => hc s (by simp [hs])
    cases prev with
    | none =>
      simp only [num_timestamps_loop]
      calc c ≤ c + seq.count := by omega
        _ ≤ _ := ih hrest _ _
    | some pt =>
      simp only [num_timestamps_loop]
      by_cases hd : decide (pt = (temporalseq_inst_n seq 0).t) = true
      · rw [if_pos hd]
        calc c ≤ c + seq.count - 1 := by omega
          _ ≤ _ := ih hrest _ _
      · rw [if_neg hd]
        calc c ≤ c + seq.count := by omega
          _ ≤ _ := ih hrest _ _

theorem timestamp_n_loop_none {seqs : List TemporalSeq}
    (hc : ∀ s ∈ seqs, (1 : Int) ≤ s.count) :
    ∀ prev c pc n0, num_timestamps_loop seqs prev c ≤ n0 →
      timestamp_n_loop n0 seqs prev c pc = none := by
  induction seqs with
  | nil => intro prev c pc n0 _; rfl
  | cons seq rest ih =>
    intro prev c pc n0 hn
    have hrest : ∀ s ∈ rest, (1 : Int) ≤ s.count := fun s hs => hc s (by simp [hs])
    cases prev with
    | none =>
      simp only [num_timestamps_loop] at hn
      simp only [timestamp_n_loop]
      have hge := num_timestamps_loop_ge hrest (some (temporalseq_inst_n seq (seq.count - 1)).t)
        (c + seq.count)
      rw [if_neg (by omega)]
      exact ih hrest _ _ _ _ hn
    | some pt =>
      simp only [num_timestamps_loop] at hn
      simp only [timestamp_n_loop]
      by_cases hd : decide (pt = (temporalseq_inst_n seq 0).t) = true
      · rw [if_pos hd] at hn
        rw [if_pos hd]
        have hge := num_timestamps_loop_ge hrest
          (some (temporalseq_inst_n seq (seq.count - 1)).t) (c + seq.count - 1)
        rw [if_neg (by simp only; omega)]
        exact ih hrest _ _ _ _ hn
      · rw [if_neg hd] at hn
        rw [if_neg hd]
        have hge := num_timestamps_loop_ge hrest
          (some (temporalseq_inst_n seq (seq.count - 1)).t) (c + seq.count)
        rw [if_neg (by simp only; omega)]
        exact ih hrest _ _ _ _ hn

theorem num_instants_loop_ge {seqs : List TemporalSeq}
    (hc : ∀ s ∈ seqs, (1 : Int) ≤ s.count) :
    ∀ prev c, c ≤ num_instants_loop seqs prev c := by
  induction seqs with
  | nil => intro prev c; exact le_refl c
  | cons seq rest ih =>
    intro prev c
    have hseq : (1 : Int) ≤ seq.count := hc seq (by simp)
    have hrest : ∀ s ∈ rest, (1 : Int) ≤ s.count := fun s hs => hc s (by simp [hs])
    cases prev with
    | none =>
      simp only [num_instants_loop]
      calc c ≤ c + seq.count := by omega
        _ ≤ _ := ih hrest _ _
    | some p =>
      simp only [num_instants_loop]
      by_cases hd : temporalinst_eq p (temporalseq_inst_n seq 0) = true
      · rw [if_pos hd]
        calc c ≤ c + seq.count - 1 := by omega
          _ ≤ _ := ih hrest _ _
      · rw [if_neg hd]
        calc c ≤ c + seq.count := by omega
          _ ≤ _ := ih hrest _ _

theorem instant_n_loop_none {seqs : List TemporalSeq}
    (hc : ∀ s ∈ seqs, (1 : Int) ≤ s.count) :
    ∀ prev c pc n0, num_instants_loop seqs prev c ≤ n0 →
      instant_n_loop n0 seqs prev c pc = none := by
  induction seqs with
  | nil => intro prev c pc n0 _; rfl
  | cons seq rest ih =>
    intro prev c pc n0 hn
    have hrest : ∀ s ∈ rest, (1 : Int) ≤ s.count := fun s hs => hc s (by simp [hs])
    cases prev with
    | none =>
      simp only [num_instants_loop] at hn
      simp only [instant_n_loop]
      have hge := num_instants_loop_ge hrest (some (temporalseq_inst_n seq (seq.count - 1)))
        (c + seq.count)
      rw [if_neg (by omega)]
      exact ih hrest _ _ _ _ hn
    | some p =>
      simp only [num_instants_loop] at hn
      simp only [instant_n_loop]
      by_cases hd : temporalinst_eq p (temporalseq_inst_n seq 0) = true
      · rw [if_pos hd] at hn
        rw [if_pos hd]
        have hge := num_instants_loop_ge hrest
          (some (temporalseq_inst_n seq (seq.count - 1))) (c + seq.count - 1)
        rw [if_neg (by simp only; omega)]
        exact ih hrest _ _ _ _ hn
      · rw [if_neg hd] at hn
        rw [if_neg hd]
        have hge := num_instants_loop_ge hrest
          (some (temporalseq_inst_n seq (seq.count - 1))) (c + seq.count)
        rw [if_neg (by simp only; omega)]
        exact ih hrest _ _ _ _ hn

theorem valid_ts_counts_ge_one {ts : TemporalS} (hv : valid_ts ts) :
    ∀ s ∈ ts.sequences, (1 : Int) ≤ s.count := by
  intro s hs
  have := hv.2.2.2.1 s hs
  unfold seq_valid at this
  rw [Bool.and_eq_true] at this
  have hne := this.1
  unfold TemporalSeq.count
  cases h : s.instants with
  | nil => rw [h] at hne; simp at hne
  | cons a l => simp

theorem temporals_num_timestamps_pos {ts : TemporalS} (hv : valid_ts ts) :
    (1 : Int) ≤ temporals_num_timestamps ts := by
  unfold temporals_num_timestamps
  have hc := valid_ts_counts_ge_one hv
  cases h : ts.sequences with
  | nil => exact absurd h hv.1
  | cons seq rest =>
    rw [h] at hc
    simp only [num_timestamps_loop]
    have hrest : ∀ s ∈ rest, (1 : Int) ≤ s.count := fun s hs => hc s (by simp [hs])
    have hseq : (1 : Int) ≤ seq.count := hc seq (by simp)
    calc (1 : Int) ≤ 0 + seq.count := by omega
      _ ≤ _ := num_timestamps_loop_ge hrest _ _

theorem temporals_num_instants_pos {ts : TemporalS} (hv : valid_ts ts) :
    (1 : Int) ≤ temporals_num_instants ts := by
  unfold temporals_num_instants
  have hc := valid_ts_counts_ge_one hv
  cases h : ts.sequences with
  | nil => exact absurd h hv.1
  | cons seq rest =>
    rw [h] at hc
    simp only [num_instants_loop]
    have hrest : ∀ s ∈ rest, (1 : Int) ≤ s.count := fun s hs => hc s (by simp [hs])
    have hseq : (1 : Int) ≤ seq.count := hc seq (by simp)
    calc (1 : Int) ≤ 0 + seq.count := by omega
      _ ≤ _ := num_instants_loop_ge hrest _ _

/-- C10 (amended): on a valid set, `temporals_timestamp_n` reports every
out-of-range ordinal (below 1 or above the number of distinct timestamps) as
absent without error; `temporals_instant_n`, however, asserts
`1 ≤ n ≤ totalcount` — an ordinal outside that range fails the assertion
instead of being reported as absent — and only a request above the number of
distinct instants but still within `totalcount` is reported as the absent
`NULL`. -/
theorem temporals_accessor_absent_C10 (ts : TemporalS) (hv : valid_ts ts) (n : Int) :
    (¬(1 ≤ n ∧ n ≤ ts.totalcount) → temporals_instant_n ts n = .error .assertFail) ∧
    (temporals_num_instants ts < n → n ≤ ts.totalcount →
      temporals_instant_n ts n = .ok none) ∧
    ((n < 1 ∨ temporals_num_timestamps ts < n) → temporals_timestamp_n ts n = none) := by
  have hc := valid_ts_counts_ge_one hv
  refine ⟨?_, ?_, ?_⟩
  · intro h
    unfold temporals_instant_n
    rw [if_pos h]
  · intro h1 h2
    have hni := temporals_num_instants_pos hv
    unfold temporals_instant_n
    rw [if_neg (by omega)]
    rw [if_neg (by simp; omega)]
    congr 1
    exact instant_n_loop_none hc none 0 0 (n - 1) (by unfold temporals_num_instants at h1; omega)
  · intro h
    have hnt := temporals_num_timestamps_pos hv
    unfold temporals_timestamp_n
    rcases h with h | h
    · rw [if_pos h]
    · rw [if_neg (by omega)]
      rw [if_neg (by simp; omega)]
      exact timestamp_n_loop_none hc none 0 0 (n - 1)
        (by unfold temporals_num_timestamps at h; omega)

/-- Counterexample for C10 as stated: on the valid set `exTS`, the
out-of-range ordinal `n = 0` makes `temporals_instant_n` fail its assertion
(an error/abort) instead of reporting the request as an absent `NULL` — while
`temporals_timestamp_n` does report it as absent. -/
theorem temporals_instant_n_assert_C10 :
    valid_ts exTS ∧
    temporals_instant_n exTS 0 = .error .assertFail ∧
    temporals_timestamp_n exTS 0 = none :=
  ⟨by decide, by decide, by decide⟩

/-- Witness for the amended C10 at the concrete set and ordinal `5`. -/
theorem temporals_accessor_absent_C10_witness :
    (¬((1 : Int) ≤ 5 ∧ (5 : Int) ≤ exTS.totalcount) →
      temporals_instant_n exTS 5 = .error .assertFail) ∧
    (temporals_num_instants exTS < 5 → (5 : Int) ≤ exTS.totalcount →
      temporals_instant_n exTS 5 = .ok none) ∧
    (((5 : Int) < 1 ∨ temporals_num_timestamps exTS < 5) →
      temporals_timestamp_n exTS 5 = none) :=
  temporals_accessor_absent_C10 exTS (by decide) 5

/-! ## Order/Identity engine: three-way comparison -/

/-- Modelled from the spec: `temporalinst_cmp` — comparison of two instants
(timestamp first, then value). -/
def temporalinst_cmp (a b : TInst) : Int :=
  if a.t < b.t then -1
  else if b.t < a.t then 1
  else if a.value < b.value then -1
  else if b.value < a.value then 1
  else 0

/-- Lexicographic comparison of two instant lists. -/
def instlist_cmp : List TInst → List TInst → Int
  | [], [] => 0
  | [], _ :: _ => -1
  | _ :: _, [] => 1
  | a :: as2, b :: bs2 =>
    if temporalinst_cmp a b ≠ 0 then temporalinst_cmp a b else instlist_cmp as2 bs2

/-- Modelled from the spec: `temporalseq_cmp`, the B-tree three-way
comparison of the Sequence collaborator: period first, then the instants. -/
def temporalseq_cmp (a b : TemporalSeq) : Int :=
  if period_cmp a.period b.period ≠ 0 then period_cmp a.period b.period
  else instlist_cmp a.instants b.instants

/-- The pairwise comparison loop of `temporals_cmp` (temporals.c:2485-2493):
`rem` counts the remaining iterations up to `min(count1, count2)`. -/
def cmp_loop (a b : TemporalS) : Nat → Nat → Int
  | _, 0 => 0
  | i, rem+1 =>
    let r := temporalseq_cmp (temporals_seq_n a i) (temporals_seq_n b i)
    if r ≠ 0 then r else cmp_loop a b (i+1) rem

/-- `temporals_cmp` (temporals.c:2467-2498): inclusivity of the global
first-lower/last-upper bounds first, then the sequences pairwise over the
shorter common length; when all of those compare equal the result is `0` —
there is NO final comparison of the counts. -/
def temporals_cmp (ts1 ts2 : TemporalS) : Int :=
  let first1 := temporals_seq_n ts1 0
  let first2 := temporals_seq_n ts2 0
  let last1 := temporals_seq_n ts1 (ts1.count - 1)
  let last2 := temporals_seq_n ts2 (ts2.count - 1)
  if (first1.period.lower_inc && !first2.period.lower_inc) ||
      (!last1.period.upper_inc && last2.period.upper_inc) then -1
  else if (first2.period.lower_inc && !first1.period.lower_inc) ||
      (!last2.period.upper_inc && last1.period.upper_inc) then 1
  else cmp_loop ts1 ts2 0 (min ts1.count ts2.count)

theorem cmp_loop_first_nonzero (a b : TemporalS) :
    ∀ rem i k, i ≤ k → k < i + rem →
      (∀ j, i ≤ j → j < k →
        temporalseq_cmp (temporals_seq_n a j) (temporals_seq_n b j) = 0) →
      temporalseq_cmp (temporals_seq_n a k) (temporals_seq_n b k) ≠ 0 →
      cmp_loop a b i rem = temporalseq_cmp (temporals_seq_n a k) (temporals_seq_n b k) := by
  intro rem
  induction rem with
  | zero => intro i k h1 h2; omega
  | succ rem ih =>
    intro i k h1 h2 hz hk
    rw [cmp_loop]
    rcases Nat.lt_or_ge i k with hik | hik
    · have hzi := hz i (le_refl i) hik
      simp only [hzi, ne_eq, not_true_eq_false, if_false, ite_false]
      exact ih (i+1) k (by omega) (by omega) (fun j hj1 hj2 => hz j (by omega) hj2) hk
    · have : i = k := by omega
      subst this
      rw [if_pos hk]

theorem cmp_loop_all_zero (a b : TemporalS) :
    ∀ rem i,
      (∀ j, i ≤ j → j < i + rem →
        temporalseq_cmp (temporals_seq_n a j) (temporals_seq_n b j) = 0) →
      cmp_loop a b i rem = 0 := by
  intro rem
  induction rem with
  | zero => intro i _; rfl
  | succ rem ih =>
    intro i hz
    rw [cmp_loop]
    have hzi := hz i (le_refl i) (by omega)
    simp only [hzi, ne_eq, not_true_eq_false, if_false, ite_false]
    exact ih (i+1) (fun j hj1 hj2 => hz j (by omega) (by omega))

/-- C6 (amended): `temporals_cmp` is driven first by the inclusivity of the
global first-lower and last-upper bounds (a set whose first lower bound is
exclusive sorts after one whose is inclusive, all else equal), then
lexicographically by the sequence comparison over the shorter common length;
there is NO count tie-break: when the bound inclusivities agree and the
first `min(count1, count2)` sequences compare equal pairwise, the result is
`0` even when the counts differ. -/
theorem temporals_cmp_spec_C6 (a b : TemporalS) (ha : valid_ts a) (hb : valid_ts b) :
    (((temporals_seq_n a 0).period.lower_inc = true ∧
        (temporals_seq_n b 0).period.lower_inc = false ∧
        (temporals_seq_n a (a.count - 1)).period.upper_inc
          = (temporals_seq_n b (b.count - 1)).period.upper_inc) →
      temporals_cmp a b = -1 ∧ temporals_cmp b a = 1) ∧
    (((temporals_seq_n a 0).period.lower_inc = (temporals_seq_n b 0).period.lower_inc ∧
        (temporals_seq_n a (a.count - 1)).period.upper_inc
          = (temporals_seq_n b (b.count - 1)).period.upper_inc) →
      ((∀ k, k < min a.count b.count →
          (∀ j, j < k →
            temporalseq_cmp (temporals_seq_n a j) (temporals_seq_n b j) = 0) →
          temporalseq_cmp (temporals_seq_n a k) (temporals_seq_n b k) ≠ 0 →
          temporals_cmp a b
            = temporalseq_cmp (temporals_seq_n a k) (temporals_seq_n b k)) ∧
        ((∀ j, j < min a.count b.count →
            temporalseq_cmp (temporals_seq_n a j) (temporals_seq_n b j) = 0) →
          temporals_cmp a b = 0))) := by
  constructor
  · rintro ⟨h1, h2, h3⟩
    unfold temporals_cmp
    constructor
    · rw [if_pos (by rw [h1, h2]; simp)]
    · rw [if_neg (by rw [h1, h2, h3]; simp), if_pos (by rw [h1, h2]; simp)]
  · rintro ⟨h1, h2⟩
    have hc1 : (((temporals_seq_n a 0).period.lower_inc &&
        !(temporals_seq_n b 0).period.lower_inc) ||
        (!(temporals_seq_n a (a.count - 1)).period.upper_inc &&
          (temporals_seq_n b (b.count - 1)).period.upper_inc)) = false := by
      rw [h1, h2]
      cases (temporals_seq_n b 0).period.lower_inc <;>
        cases (temporals_seq_n b (b.count - 1)).period.upper_inc <;> simp
    have hc2 : (((temporals_seq_n b 0).period.lower_inc &&
        !(temporals_seq_n a 0).period.lower_inc) ||
        (!(temporals_seq_n b (b.count - 1)).period.upper_inc &&
          (temporals_seq_n a (a.count - 1)).period.upper_inc)) = false := by
      rw [h1, h2]
      cases (temporals_seq_n b 0).period.lower_inc <;>
        cases (temporals_seq_n b (b.count - 1)).period.upper_inc <;> simp
    constructor
    · intro k hk hz hnz
      unfold temporals_cmp
      rw [if_neg (by rw [hc1]; simp), if_neg (by rw [hc2]; simp)]
      exact cmp_loop_first_nonzero a b (min a.count b.count) 0 k (by omega) (by omega)
        (fun j _ hj => hz j hj) hnz
    · intro hz
      unfold temporals_cmp
      rw [if_neg (by rw [hc1]; simp), if_neg (by rw [hc2]; simp)]
      exact cmp_loop_all_zero a b (min a.count b.count) 0 (fun j _ hj => hz j (by omega))

/-- The singleton sequence set `{[0,1)}`, a strict prefix of `exTS`. -/
def exTSa : TemporalS :=
  { sequences := [exSeq1]
    count := 1
    totalcount := 2
    valuetypid := Typid.tint
    linear := false
    hasZ := false
    geodetic := false
    bbox := temporals_make_bbox [exSeq1] }

/-- Counterexample for C6 as stated: two valid sets whose global bound
inclusivities agree and whose common prefix compares equal but whose counts
differ (1 vs 2) — the claim requires a nonzero result from the count
tie-break, yet `temporals_cmp` returns `0`. -/
theorem temporals_cmp_counterexample_C6 :
    valid_ts exTSa ∧ valid_ts exTS ∧
    (temporals_seq_n exTSa 0).period.lower_inc
      = (temporals_seq_n exTS 0).period.lower_inc ∧
    (temporals_seq_n exTSa (exTSa.count - 1)).period.upper_inc
      = (temporals_seq_n exTS (exTS.count - 1)).period.upper_inc ∧
    temporalseq_cmp (temporals_seq_n exTSa 0) (temporals_seq_n exTS 0) = 0 ∧
    exTSa.count ≠ exTS.count ∧
    temporals_cmp exTSa exTS = 0 := by
  decide

/-- Witness for the amended C6 at the concrete pair of valid sets. -/
theorem temporals_cmp_spec_C6_witness :
    (((temporals_seq_n exTSa 0).period.lower_inc = true ∧
        (temporals_seq_n exTS 0).period.lower_inc = false ∧
        (temporals_seq_n exTSa (exTSa.count - 1)).period.upper_inc
          = (temporals_seq_n exTS (exTS.count - 1)).period.upper_inc) →
      temporals_cmp exTSa exTS = -1 ∧ temporals_cmp exTS exTSa = 1) ∧
    (((temporals_seq_n exTSa 0).period.lower_inc
        = (temporals_seq_n exTS 0).period.lower_inc ∧
        (temporals_seq_n exTSa (exTSa.count - 1)).period.upper_inc
          = (temporals_seq_n exTS (exTS.count - 1)).period.upper_inc) →
      ((∀ k, k < min exTSa.count exTS.count →
          (∀ j, j < k →
            temporalseq_cmp (temporals_seq_n exTSa j) (temporals_seq_n exTS j) = 0) →
          temporalseq_cmp (temporals_seq_n exTSa k) (temporals_seq_n exTS k) ≠ 0 →
          temporals_cmp exTSa exTS
            = temporalseq_cmp (temporals_seq_n exTSa k) (temporals_seq_n exTS k)) ∧
        ((∀ j, j < min exTSa.count exTS.count →
            temporalseq_cmp (temporals_seq_n exTSa j) (temporals_seq_n exTS j) = 0) →
          temporals_cmp exTSa exTS = 0))) :=
  temporals_cmp_spec_C6 exTSa exTS (by decide) (by decide)

/-! ## Append instant -/

/-- Modelled from the spec: `temporalseq_append_instant` of the Sequence
collaborator — extend the last sequence with the instant; the period's upper
bound becomes the new instant's timestamp (spec scenario 2). -/
def temporalseq_append_instant (s : TemporalSeq) (inst : TInst) : TemporalSeq :=
  { s with
    instants := s.instants ++ [inst]
    period := ⟨s.period.lower, inst.t, s.period.lower_inc, true⟩ }

/-- `temporals_append_instant` (temporals.c:254-314): extend the last
sequence through the collaborator, reuse the first `count-1` packed
sequences unchanged, adjust `totalcount` incrementally, and expand (not
recompute) the trailing bounding box with the new instant's box. -/
def temporals_append_instant (ts : TemporalS) (inst : TInst) : TemporalS :=
  let seq := temporals_seq_n ts (ts.count - 1)
  let newseq := temporalseq_append_instant seq inst
  { sequences := ts.sequences.take (ts.count - 1) ++ [newseq]
    count := ts.count
    totalcount := ts.totalcount - seq.count + newseq.count
    valuetypid := ts.valuetypid
    linear := ts.linear
    hasZ := if ts.valuetypid.isGeo then ts.hasZ else false
    geodetic := if ts.valuetypid.isGeo then ts.geodetic else false
    bbox := temporal_bbox_expand ts.bbox (temporalinst_make_bbox inst) }

/-- C7: `temporals_append_instant` keeps the sequence count, reuses the
first `count-1` packed sequences byte-for-byte, sets the new `totalcount` to
the old one minus the old last sequence's instant count plus the new last
sequence's instant count (which, on a valid input, keeps `totalcount` equal
to the sum of the per-sequence counts), and stores the old bounding box
expanded — not recomputed — with the new instant's box.  The input set is
left unchanged (the embedding is pure: the result is a fresh value). -/
theorem temporals_append_instant_spec_C7 (ts : TemporalS) (hv : valid_ts ts) (inst : TInst) :
    (temporals_append_instant ts inst).count = ts.count ∧
    (temporals_append_instant ts inst).sequences.take (ts.count - 1)
      = ts.sequences.take (ts.count - 1) ∧
    temporals_seq_n (temporals_append_instant ts inst) (ts.count - 1)
      = temporalseq_append_instant (temporals_seq_n ts (ts.count - 1)) inst ∧
    (temporals_append_instant ts inst).totalcount
      = ts.totalcount - (temporals_seq_n ts (ts.count - 1)).count
        + (temporals_seq_n (temporals_append_instant ts inst) (ts.count - 1)).count ∧
    (temporals_append_instant ts inst).bbox
      = temporal_bbox_expand (temporals_bbox ts) (temporalinst_make_bbox inst) ∧
    (temporals_append_instant ts inst).totalcount
      = ((temporals_append_instant ts inst).sequences.map (fun s => (s.count : Int))).sum := by
  have hcnt := valid_ts_count_eq hv
  have hpos := valid_ts_count_pos hv
  have hlen : (ts.sequences.take (ts.count - 1)).length = ts.count - 1 := by
    rw [List.length_take]
    omega
  have hgetlast : temporals_seq_n (temporals_append_instant ts inst) (ts.count - 1)
      = temporalseq_append_instant (temporals_seq_n ts (ts.count - 1)) inst := by
    unfold temporals_seq_n temporals_append_instant
    simp only
    rw [List.getD_eq_getElem?_getD, List.getElem?_append_right (by omega)]
    rw [hlen]
    simp [temporals_seq_n, List.getD_eq_getElem?_getD]
  refine ⟨rfl, ?_, hgetlast, ?_, rfl, ?_⟩
  · unfold temporals_append_instant
    simp only
    rw [List.take_append_of_le_length (by omega)]
    rw [List.take_take]
    simp
  · rw [hgetlast]
    rfl
  · have hsplit : ts.sequences
        = ts.sequences.take (ts.count - 1) ++ ts.sequences.drop (ts.count - 1) :=
      (List.take_append_drop _ _).symm
    have hdrop : ts.sequences.drop (ts.count - 1) = [temporals_seq_n ts (ts.count - 1)] := by
      have h1 : ts.count - 1 < ts.sequences.length := by omega
      rw [List.drop_eq_getElem_cons h1]
      have h2 : ts.sequences.drop (ts.count - 1 + 1) = [] := by
        rw [List.drop_eq_nil_iff_le]
        omega
      rw [h2]
      unfold temporals_seq_n
      rw [List.getD_eq_getElem ts.sequences default h1]
    have htot : ts.totalcount = ((ts.sequences.take (ts.count - 1)).map
        (fun s => (s.count : Int))).sum + ((temporals_seq_n ts (ts.count - 1)).count : Int) := by
      conv_lhs => rw [hv.2.2.1]
      conv_lhs => rw [hsplit]
      rw [List.map_append, List.sum_append, hdrop]
      simp
    show ts.totalcount - ((temporals_seq_n ts (ts.count - 1)).count : Int)
        + ((temporalseq_append_instant (temporals_seq_n ts (ts.count - 1)) inst).count : Int)
      = ((ts.sequences.take (ts.count - 1)
          ++ [temporalseq_append_instant (temporals_seq_n ts (ts.count - 1)) inst]).map
          (fun s => (s.count : Int))).sum
    rw [List.map_append, List.sum_append]
    simp only [List.map_cons, List.map_nil, List.sum_cons, List.sum_nil]
    rw [htot]
    ring

/-- Witness for C7: append the instant `(1, 5)` to the concrete set. -/
theorem temporals_append_instant_spec_C7_witness :
    (temporals_append_instant exTS ⟨1, 5⟩).count = exTS.count ∧
    (temporals_append_instant exTS ⟨1, 5⟩).sequences.take (exTS.count - 1)
      = exTS.sequences.take (exTS.count - 1) ∧
    temporals_seq_n (temporals_append_instant exTS ⟨1, 5⟩) (exTS.count - 1)
      = temporalseq_append_instant (temporals_seq_n exTS (exTS.count - 1)) ⟨1, 5⟩ ∧
    (temporals_append_instant exTS ⟨1, 5⟩).totalcount
      = exTS.totalcount - (temporals_seq_n exTS (exTS.count - 1)).count
        + (temporals_seq_n (temporals_append_instant exTS ⟨1, 5⟩) (exTS.count - 1)).count ∧
    (temporals_append_instant exTS ⟨1, 5⟩).bbox
      = temporal_bbox_expand (temporals_bbox exTS) (temporalinst_make_bbox ⟨1, 5⟩) ∧
    (temporals_append_instant exTS ⟨1, 5⟩).totalcount
      = ((temporals_append_instant exTS ⟨1, 5⟩).sequences.map (fun s => (s.count : Int))).sum :=
  temporals_append_instant_spec_C7 exTS (by decide) ⟨1, 5⟩

/-! ## Wire serialization -/

/-- Encode a Bool as the wire byte 0/1. -/
def b2i (b : Bool) : Int := if b then 1 else 0

/-- Decode a wire byte back to a Bool. -/
def i2b (n : Int) : Bool := n == 1

/-- Encode a type tag for the wire. -/
def typ2i : Typid → Int
  | .tbool => 0
  | .tint => 1
  | .tfloat => 2
  | .ttext => 3
  | .tgeompoint => 4
  | .tgeogpoint => 5

/-- Decode a type tag from the wire. -/
def i2typ (n : Int) : Typid :=
  if n = 0 then .tbool
  else if n = 1 then .tint
  else if n = 2 then .tfloat
  else if n = 3 then .ttext
  else if n = 4 then .tgeompoint
  else .tgeogpoint

theorem i2b_b2i (b : Bool) : i2b (b2i b) = b := by cases b <;> rfl

theorem i2typ_typ2i (t : Typid) : i2typ (typ2i t) = t := by cases t <;> rfl

/-- Encode a rational timestamp/value as its numerator and denominator. -/
def ratEnc (q : ℚ) : List Int := [q.num, (q.den : Int)]

/-- Decode a rational from two wire integers. -/
def ratDec : List Int → Option (ℚ × List Int)
  | n :: d :: r => some (mkRat n d.toNat, r)
  | _ => none

theorem ratDec_enc (q : ℚ) (r : List Int) : ratDec (ratEnc q ++ r) = some (q, r) := by
  simp only [ratEnc, List.cons_append, List.nil_append, ratDec, Int.toNat_natCast,
    Rat.mkRat_self]

/-- Encode one instant. -/
def instEnc (i : TInst) : List Int := ratEnc i.value ++ ratEnc i.t

/-- Decode one instant. -/
def instDec (buf : List Int) : Option (TInst × List Int) :=
  match ratDec buf with
  | none => none
  | some (v, r1) =>
    match ratDec r1 with
    | none => none
    | some (t, r2) => some (⟨v, t⟩, r2)

theorem instDec_enc (i : TInst) (r : List Int) : instDec (instEnc i ++ r) = some (i, r) := by
  unfold instDec instEnc
  rw [List.append_assoc]
  simp only [ratDec_enc]

/-- Decode a counted run of instants. -/
def instsDec : Nat → List Int → Option (List TInst × List Int)
  | 0, buf => some ([], buf)
  | n+1, buf =>
    match instDec buf with
    | none => none
    | some (i, r1) =>
      match instsDec n r1 with
      | none => none
      | some (l, r2) => some (i :: l, r2)

theorem instsDec_enc (l : List TInst) (r : List Int) :
    instsDec l.length ((l.map instEnc).flatten ++ r) = some (l, r) := by
  induction l with
  | nil => rfl
  | cons i rest ih =>
    simp only [List.length_cons, List.map_cons, List.flatten_cons, List.append_assoc]
    unfold instsDec
    simp only [instDec_enc, ih]

/-- Encode a period. -/
def periodEnc (p : Period) : List Int :=
  ratEnc p.lower ++ ratEnc p.upper ++ [b2i p.lower_inc, b2i p.upper_inc]

/-- Decode a period. -/
def periodDec (buf : List Int) : Option (Period × List Int) :=
  match ratDec buf with
  | none => none
  | some (lo, r1) =>
    match ratDec r1 with
    | none => none
    | some (hi, r2) =>
      match r2 with
      | li :: ui :: r3 => some (⟨lo, hi, i2b li, i2b ui⟩, r3)
      | _ => none

theorem periodDec_enc (p : Period) (r : List Int) :
    periodDec (periodEnc p ++ r) = some (p, r) := by
  unfold periodDec periodEnc
  rw [List.append_assoc, List.append_assoc]
  simp only [ratDec_enc, List.cons_append, List.nil_append, i2b_b2i]

/-- Modelled from the spec: `temporalseq_write` — the self-delimiting wire
form of one sequence of the Sequence collaborator (instant count, instants,
period, type tag and metadata). -/
def temporalseq_write (s : TemporalSeq) : List Int :=
  [(s.instants.length : Int)] ++ (s.instants.map instEnc).flatten ++ periodEnc s.period ++
    [typ2i s.valuetypid, b2i s.linear, s.srid, b2i s.hasZ, b2i s.geodetic]

/-- Modelled from the spec: `temporalseq_read` — the inverse of the wire
form of one sequence. -/
def temporalseq_read (buf : List Int) : Option (TemporalSeq × List Int) :=
  match buf with
  | n :: rest =>
    match instsDec n.toNat rest with
    | none => none
    | some (insts, r1) =>
      match periodDec r1 with
      | none => none
      | some (p, r2) =>
        match r2 with
        | ty :: lin :: srid :: hz :: geod :: r3 =>
          some (⟨insts, p, i2typ ty, i2b lin, srid, i2b hz, i2b geod⟩, r3)
        | _ => none
  | [] => none

theorem temporalseq_read_write (s : TemporalSeq) (r : List Int) :
    temporalseq_read (temporalseq_write s ++ r) = some (s, r) := by
  unfold temporalseq_read temporalseq_write
  simp only [List.cons_append, List.nil_append, List.append_assoc, Int.toNat_natCast]
  simp only [instsDec_enc, periodDec_enc, i2b_b2i, i2typ_typ2i]

/-- Decode a counted run of sequences (the reader loop of `temporals_read`,
temporals.c:878-879). -/
def seqs_read : Nat → List Int → Option (List TemporalSeq × List Int)
  | 0, buf => some ([], buf)
  | n+1, buf =>
    match temporalseq_read buf with
    | none => none
    | some (s, r1) =>
      match seqs_read n r1 with
      | none => none
      | some (l, r2) => some (s :: l, r2)

theorem seqs_read_write (l : List TemporalSeq) (r : List Int) :
    seqs_read l.length ((l.map temporalseq_write).flatten ++ r) = some (l, r) := by
  induction l with
  | nil => rfl
  | cons s rest ih =>
    simp only [List.length_cons, List.map_cons, List.flatten_cons, List.append_assoc]
    unfold seqs_read
    simp only [temporalseq_read_write, ih]

/-- The 4-byte big-endian wire form of an int32 (`pq_sendint32`). -/
def int32enc (n : Int) : List Int :=
  [n / 16777216 % 256, n / 65536 % 256, n / 256 % 256, n % 256]

/-- `temporals_write` (temporals.c:850-863): the count as a 4-byte integer,
then each sequence's wire form in order — no offset table on the wire. -/
def temporals_write (ts : TemporalS) : List Int :=
  int32enc ts.count ++ (ts.sequences.map temporalseq_write).flatten

/-- `temporals_read` (temporals.c:872-881): read the 4-byte count (asserting
it positive), read that many sequences, and re-invoke the builder without
normalization. -/
def temporals_read (buf : List Int) : Except CErr (TemporalS × List Int) :=
  match buf with
  | b0 :: b1 :: b2 :: b3 :: rest =>
    let count : Int := ((b0 * 256 + b1) * 256 + b2) * 256 + b3
    if count ≤ 0 then .error .assertFail
    else
      match seqs_read count.toNat rest with
      | none => .error .assertFail
      | some (l, rest2) =>
        match temporals_make_free l false with
        | .error e => .error e
        | .ok none => .error .assertFail
        | .ok (some ts) => .ok (ts, rest2)
  | _ => .error .assertFail

/-- Modelled from the spec: `temporalseq_eq` — the Sequence collaborator's
equality of two sequences. -/
def temporalseq_eq (s1 s2 : TemporalSeq) : Bool := decide (s1 = s2)

/-- Modelled from the spec: `temporal_bbox_eq` — equality of two boxes. -/
def temporal_bbox_eq (b1 b2 : TBox) : Bool := decide (b1 = b2)

/-- The pairwise loop of `temporals_eq` (temporals.c:2445-2451). -/
def eq_loop (a b : TemporalS) : Nat → Nat → Bool
  | _, 0 => true
  | i, rem+1 =>
    if temporalseq_eq (temporals_seq_n a i) (temporals_seq_n b i) then eq_loop a b (i+1) rem
    else false

/-- `temporals_eq` (temporals.c:2430-2453): count and flags, then the
bounding boxes, then the sequences pairwise. -/
def temporals_eq (ts1 ts2 : TemporalS) : Bool :=
  if ts1.count != ts2.count || ts1.linear != ts2.linear || ts1.hasZ != ts2.hasZ ||
      ts1.geodetic != ts2.geodetic then false
  else if !temporal_bbox_eq ts1.bbox ts2.bbox then false
  else eq_loop ts1 ts2 0 ts1.count

theorem eq_loop_of_eq (a b : TemporalS) (h : a.sequences = b.sequences) :
    ∀ rem i, eq_loop a b i rem = true := by
  intro rem
  induction rem with
  | zero => intro i; rfl
  | succ rem ih =>
    intro i
    rw [eq_loop, if_pos]
    · exact ih (i+1)
    · unfold temporalseq_eq temporals_seq_n
      rw [h]
      simp

theorem temporals_eq_of_fields (a b : TemporalS) (hc : a.count = b.count)
    (hl : a.linear = b.linear) (hz : a.hasZ = b.hasZ) (hg : a.geodetic = b.geodetic)
    (hbox : a.bbox = b.bbox) (hs : a.sequences = b.sequences) : temporals_eq a b = true := by
  unfold temporals_eq
  rw [if_neg (by simp [hc, hl, hz, hg]), if_neg (by simp [temporal_bbox_eq, hbox])]
  exact eq_loop_of_eq a b hs a.count 0

theorem valid_ts_pairs_okb {ts : TemporalS} (hv : valid_ts ts) :
    pairs_okb (ts.sequences.getD 0 default).valuetypid.isGeo ts.sequences = true := by
  rw [pairs_okb_iff_forall]
  intro i hi
  unfold pair_checkb
  have hbroken := (seqs_sorted_iff_forall ts.sequences).mp hv.2.2.2.2.1 i hi
  rw [hbroken]
  have huni := hv.2.2.2.2.2.1
  unfold seqs_uniform at huni
  rw [List.all_eq_true] at huni
  have hm1 : ts.sequences.getD i default ∈ ts.sequences := by
    rw [List.getD_eq_getElem _ _ (by omega)]
    exact List.getElem_mem _
  have hm2 : ts.sequences.getD (i+1) default ∈ ts.sequences := by
    rw [List.getD_eq_getElem _ _ (by omega)]
    exact List.getElem_mem _
  have h1 := huni _ hm1
  have h2 := huni _ hm2
  simp only [Bool.and_eq_true, beq_iff_eq] at h1 h2
  obtain ⟨⟨⟨⟨ht1, hl1⟩, hs1⟩, hz1⟩, hg1⟩ := h1
  obtain ⟨⟨⟨⟨ht2, hl2⟩, hs2⟩, hz2⟩, hg2⟩ := h2
  cases hgeo : (ts.sequences.getD 0 default).valuetypid.isGeo
  · simp
  · simp only [Bool.not_false, Bool.true_and, Bool.not_true, Bool.false_or]
    rw [Bool.and_eq_true, beq_iff_eq, beq_iff_eq, hs1, hs2, hz1, hz2]
    exact ⟨rfl, rfl⟩

/-- C8: the wire form of a sequence set is the count as a 4-byte integer
followed by each sequence's wire form in order (no offset table on the
wire); `temporals_read` performs the inverse, re-invoking the builder
without normalization, and the round-trip result equals the original under
the engine's equality `temporals_eq`. -/
theorem temporals_round_trip_C8 (ts : TemporalS) (hv : valid_ts ts)
    (hc : (ts.count : Int) < 2147483648) (rest : List Int) :
    temporals_write ts
      = int32enc ts.count ++ (ts.sequences.map temporalseq_write).flatten ∧
    ∃ r, temporals_read (temporals_write ts ++ rest) = .ok (r, rest) ∧
      temporals_eq r ts = true := by
  refine ⟨rfl, ?_⟩
  obtain ⟨s0, srest, hseq⟩ : ∃ s0 srest, ts.sequences = s0 :: srest := by
    cases h : ts.sequences with
    | nil => exact absurd h hv.1
    | cons a l => exact ⟨a, l, rfl⟩
  have hpos := valid_ts_count_pos hv
  unfold temporals_write temporals_read int32enc
  simp only [List.cons_append, List.nil_append, List.append_assoc]
  have hdecode : (((ts.count : Int) / 16777216 % 256 * 256
      + (ts.count : Int) / 65536 % 256) * 256
      + (ts.count : Int) / 256 % 256) * 256 + (ts.count : Int) % 256
      = (ts.count : Int) := by
    have h0 : (0 : Int) ≤ (ts.count : Int) := Int.ofNat_nonneg ts.count
    omega
  rw [hdecode]
  rw [if_neg (by omega)]
  rw [Int.toNat_natCast]
  have hsr : seqs_read ts.count ((ts.sequences.map temporalseq_write).flatten ++ rest)
      = some (ts.sequences, rest) := by
    rw [valid_ts_count_eq hv]
    exact seqs_read_write _ _
  rw [hsr]
  have hmake : temporals_make ts.sequences false
      = .ok (build_ts ts.sequences s0 s0.valuetypid.isGeo) := by
    rw [hseq, temporals_make]
    have hchk : make_check s0.valuetypid.isGeo s0 srest = .ok () := by
      rw [make_check_ok_iff]
      have := valid_ts_pairs_okb hv
      rw [hseq] at this
      simpa using this
    rw [hchk]
    simp [Bind.bind, Except.bind]
  have hfree : temporals_make_free ts.sequences false
      = .ok (some (build_ts ts.sequences s0 s0.valuetypid.isGeo)) := by
    unfold temporals_make_free
    rw [if_neg (by rw [hseq]; simp), hmake]
    rfl
  refine ⟨build_ts ts.sequences s0 s0.valuetypid.isGeo, by simp only [hfree], ?_⟩
  have hs0 : ts.sequences.getD 0 default = s0 := by rw [hseq]; rfl
  apply temporals_eq_of_fields
  · show ts.sequences.length = ts.count
    exact (valid_ts_count_eq hv).symm
  · show s0.linear = ts.linear
    rw [hv.2.2.2.2.2.2.2.1, hs0]
  · show (if s0.valuetypid.isGeo then s0.hasZ else false) = ts.hasZ
    rw [hv.2.2.2.2.2.2.2.2.1, hv.2.2.2.2.2.2.1, hs0]
  · show (if s0.valuetypid.isGeo then s0.geodetic else false) = ts.geodetic
    rw [hv.2.2.2.2.2.2.2.2.2.1, hv.2.2.2.2.2.2.1, hs0]
  · show temporals_make_bbox ts.sequences = ts.bbox
    exact hv.2.2.2.2.2.2.2.2.2.2.symm
  · rfl

/-- Witness for C8 at the concrete valid set. -/
theorem temporals_round_trip_C8_witness :
    temporals_write exTS
      = int32enc exTS.count ++ (exTS.sequences.map temporalseq_write).flatten ∧
    ∃ r, temporals_read (temporals_write exTS ++ []) = .ok (r, []) ∧
      temporals_eq r exTS = true :=
  temporals_round_trip_C8 exTS (by decide) (by decide) []

/-! ## Algebra engine: intersection of two sequence sets -/

/-- Modelled from the spec: `intersection_temporalseq_temporalseq` of the
Sequence collaborator — `NULL` when the two sequences' periods do not
overlap, otherwise a pair of aligned fragments over the intersection of the
periods, each inheriting the metadata of its own operand. -/
def intersection_temporalseq_temporalseq (a b : TemporalSeq) :
    Option (TemporalSeq × TemporalSeq) :=
  if overlaps_period_period a.period b.period then
    some
      ({ a with
          period := period_inter a.period b.period
          instants := a.instants.filter
            (fun i => contains_period_timestamp (period_inter a.period b.period) i.t) },
        { b with
          period := period_inter a.period b.period
          instants := b.instants.filter
            (fun i => contains_period_timestamp (period_inter a.period b.period) i.t) })
  else none

/-- The merge-join loop of `intersection_temporals_temporals`
(temporals.c:642-662): delegate each visited pair to the Sequence
collaborator, then advance by the lexicographic period comparison. -/
def mj_loop : List TemporalSeq → List TemporalSeq → List (TemporalSeq × TemporalSeq)
  | a :: as2, b :: bs2 =>
    let rest :=
      if period_eqb a.period b.period then mj_loop as2 bs2
      else if period_ltb a.period b.period then mj_loop as2 (b :: bs2)
      else mj_loop (a :: as2) bs2
    (match intersection_temporalseq_temporalseq a b with
      | some fr => fr :: rest
      | none => rest)
  | _, [] => []
  | [], _ => []
termination_by l1 l2 => l1.length + l2.length

/-- `intersection_temporals_temporals` (temporals.c:627-672): mandatory O(1)
bounding-period early exit, then the merge-join, then rebuild both outputs
without normalization; failure (no fragments) is reported as "no overlap". -/
def intersection_temporals_temporals (ts1 ts2 : TemporalS) :
    Except CErr (Option (TemporalS × TemporalS)) :=
  if overlaps_period_period (temporals_period ts1) (temporals_period ts2) = false then
    .ok none
  else
    match mj_loop ts1.sequences ts2.sequences with
    | [] => .ok none
    | fr :: frs =>
      match temporals_make ((fr :: frs).map Prod.fst) false with
      | .error e => .error e
      | .ok r1 =>
        match temporals_make ((fr :: frs).map Prod.snd) false with
        | .error e => .error e
        | .ok r2 => .ok (some (r1, r2))

/-- A timestamp covered by some sequence of a set. -/
def coveredBy (ts : TemporalS) (t : ℚ) : Prop :=
  ∃ s ∈ ts.sequences, contains_period_timestamp s.period t = true

theorem cutMin_le_left (a b : ℚ × Int) : cutLE (cutMin a b) a :=
  (cutLE_cutMin_iff.mp (cutLE_refl (cutMin a b))).1

theorem cutMin_le_right (a b : ℚ × Int) : cutLE (cutMin a b) b :=
  (cutLE_cutMin_iff.mp (cutLE_refl (cutMin a b))).2

theorem le_cutMax_left (a b : ℚ × Int) : cutLE a (cutMax a b) :=
  (cutLE_cutMax_iff.mp (cutLE_refl (cutMax a b))).1

theorem le_cutMax_right (a b : ℚ × Int) : cutLE b (cutMax a b) :=
  (cutLE_cutMax_iff.mp (cutLE_refl (cutMax a b))).2

theorem period_cmp_eq_zero_iff {p q : Period} : period_cmp p q = 0 ↔ p = q := by
  constructor
  · intro hh
    unfold period_cmp at hh
    split_ifs at hh with h1 h2 h3 h4 h5 h6 h7 h8 <;> try simp at hh
    simp only [not_lt, not_ne_iff] at h1 h2 h3 h5 h6 h7
    cases p
    cases q
    simp only [Period.mk.injEq]
    exact ⟨le_antisymm h2 h1, le_antisymm h6 h5, h3, h7⟩
  · intro he
    subst he
    unfold period_cmp
    simp

theorem period_ltb_sCut_le {p q : Period} (h : period_ltb p q = true) :
    cutLE (sCut p) (sCut q) := by
  unfold period_ltb at h
  rw [decide_eq_true_eq] at h
  unfold period_cmp at h
  split_ifs at h with h1 h2 h3 h4 h5 h6 h7 h8 <;> try omega
  · exact Or.inl h1
  · have hle : p.lower = q.lower := le_antisymm (not_lt.mp h2) (not_lt.mp h1)
    have hq : q.lower_inc = false := by
      cases hq2 : q.lower_inc
      · rfl
      · exact absurd (h4.trans hq2.symm) h3
    simp [cutLE, sCut, h4, hq, hle]
  · have hle : p.lower = q.lower := le_antisymm (not_lt.mp h2) (not_lt.mp h1)
    have hinc : p.lower_inc = q.lower_inc := not_ne_iff.mp h3
    unfold sCut
    rw [hle, hinc]
    exact cutLE_refl _
  · have hle : p.lower = q.lower := le_antisymm (not_lt.mp h2) (not_lt.mp h1)
    have hinc : p.lower_inc = q.lower_inc := not_ne_iff.mp h3
    unfold sCut
    rw [hle, hinc]
    exact cutLE_refl _

theorem period_cmp_antisymm (p q : Period) : period_cmp q p = - period_cmp p q := by
  unfold period_cmp
  rcases lt_trichotomy p.lower q.lower with h1 | h1 | h1
  · simp [h1, asymm h1]
  · rcases lt_trichotomy p.upper q.upper with h4 | h4 | h4
    · by_cases h3 : p.lower_inc = q.lower_inc
      · simp [h1, h3, h4, asymm h4]
      · cases hl : p.lower_inc <;> cases hm : q.lower_inc <;> simp_all [h1]
    · by_cases h3 : p.lower_inc = q.lower_inc
      · by_cases h6 : p.upper_inc = q.upper_inc
        · simp [h1, h3, h4, h6]
        · cases hu : p.upper_inc <;> cases hv : q.upper_inc <;> simp_all [h1, h4]
      · cases hl : p.lower_inc <;> cases hm : q.lower_inc <;> simp_all [h1, h4]
    · by_cases h3 : p.lower_inc = q.lower_inc
      · simp [h1, h3, h4, asymm h4]
      · cases hl : p.lower_inc <;> cases hm : q.lower_inc <;> simp_all [h1, h4]
  · simp [h1, asymm h1]

theorem period_ltb_of_not {p q : Period} (h1 : period_eqb p q = false)
    (h2 : period_ltb p q = false) : period_ltb q p = true := by
  unfold period_eqb at h1
  unfold period_ltb at h2 ⊢
  rw [period_cmp_antisymm]
  rw [beq_eq_false_iff_ne] at h1
  rw [decide_eq_false_iff_not, not_lt] at h2
  rw [decide_eq_true_eq]
  omega

theorem cutLT_irrefl (a : ℚ × Int) : ¬ cutLT a a := by
  unfold cutLT
  push_neg
  exact ⟨le_refl _, fun _ => le_refl _⟩

theorem cutLE_of_not_LT {a b : ℚ × Int} (h : ¬ cutLT a b) : cutLE b a := by
  unfold cutLT at h
  push_neg at h
  rcases lt_trichotomy b.1 a.1 with h1 | h1 | h1
  · exact Or.inl h1
  · exact Or.inr ⟨h1, h.2 h1.symm⟩
  · exact absurd h1 (not_lt.mpr h.1)

theorem period_valid_of_seq_valid {s : TemporalSeq} (h : seq_valid s = true) :
    period_valid s.period = true := by
  rw [seq_valid, Bool.and_eq_true] at h
  exact h.2

theorem seqs_sorted_tail {x : TemporalSeq} {xs : List TemporalSeq}
    (h : seqs_sorted (x :: xs) = true) : seqs_sorted xs = true := by
  cases xs with
  | nil => rfl
  | cons b r2 =>
    rw [seqs_sorted, Bool.and_eq_true] at h
    exact h.2

theorem sorted_head_lt {x : TemporalSeq} {xs : List TemporalSeq}
    (h : seqs_sorted (x :: xs) = true)
    (hval : ∀ s ∈ xs, period_valid s.period = true) :
    ∀ y ∈ xs, cutLT (eCut x.period) (sCut y.period) := by
  induction xs generalizing x with
  | nil => intro y hy; cases hy
  | cons b r2 ih =>
    intro y hy
    rw [seqs_sorted, Bool.and_eq_true] at h
    have hxb : cutLT (eCut x.period) (sCut b.period) :=
      not_broken_iff_cut.mp (by
        cases hb : broken_order x.period b.period
        · rfl
        · rw [hb] at h; simp at h)
    rcases List.mem_cons.mp hy with hy1 | hy2
    · exact hy1 ▸ hxb
    · have hbv : period_valid b.period = true := hval b (List.mem_cons_self b r2)
      have hby := ih h.2 (fun s hs => hval s (List.mem_cons_of_mem b hs)) y hy2
      exact cutLT_trans (cutLT_of_LT_of_LE hxb (valid_iff_cut.mp hbv)) hby

theorem before_of_not_overlap_le {a b : Period} (hvb : period_valid b = true)
    (hno : overlaps_period_period a b = false) (hle : cutLE (sCut a) (sCut b)) :
    cutLT (eCut a) (sCut b) := by
  have hnc : ¬ (cutLE (sCut a) (eCut b) ∧ cutLE (sCut b) (eCut a)) := by
    intro hc
    rw [overlaps_iff_cut.mpr hc] at hno
    exact Bool.true_eq_false.mp hno
  rcases not_and_or.mp hnc with h | h
  · exfalso
    have h1 : cutLT (eCut b) (sCut a) := cutLT_of_not_LE h
    have h2 : cutLE (sCut b) (eCut b) := valid_iff_cut.mp hvb
    exact cutLT_irrefl _ (cutLT_of_LT_of_LE (cutLT_of_LT_of_LE h1 hle) h2)
  · exact cutLT_of_not_LE h

theorem getD_mem_of_lt {l : List TemporalSeq} {i : Nat} (h : i < l.length) :
    l.getD i default ∈ l := by
  rw [List.getD_eq_getElem?_getD, List.getElem?_eq_getElem h]
  exact List.getElem_mem h

theorem mem_index_getD {l : List TemporalSeq} {s : TemporalSeq} (h : s ∈ l) :
    ∃ i, i < l.length ∧ l.getD i default = s := by
  obtain ⟨i, hilt, hia⟩ := List.mem_iff_getElem.mp h
  refine ⟨i, hilt, ?_⟩
  rw [List.getD_eq_getElem?_getD, List.getElem?_eq_getElem hilt]
  exact hia

theorem periodN_cut_bounds {ts : TemporalS} (hv : valid_ts ts) {i : Nat}
    (hi : i < ts.count) :
    cutLE (sCut (periodN ts 0)) (sCut (periodN ts i)) ∧
    cutLE (eCut (periodN ts i)) (eCut (periodN ts (ts.count - 1))) := by
  have hc0 : 0 < ts.count := valid_ts_count_pos hv
  constructor
  · rcases Nat.eq_zero_or_pos i with h0 | h0
    · subst h0; exact cutLE_refl _
    · have hch := sorted_cut_chain hv 0 i h0 hi
      have hv0 := valid_iff_cut.mp (periodN_valid hv hc0)
      exact cutLE_of_LT (cutLT_of_LE_of_LT hv0 hch)
  · rcases Nat.lt_or_ge i (ts.count - 1) with h0 | h0
    · have hch := sorted_cut_chain hv i (ts.count - 1) h0 (by omega)
      have hvl := valid_iff_cut.mp (periodN_valid hv (show ts.count - 1 < ts.count by omega))
      exact cutLE_of_LT (cutLT_of_LT_of_LE hch hvl)
    · have : i = ts.count - 1 := by omega
      subst this
      exact cutLE_refl _

theorem temporals_period_sCut (ts : TemporalS) :
    sCut (temporals_period ts) = sCut (periodN ts 0) := rfl

theorem temporals_period_eCut (ts : TemporalS) :
    eCut (temporals_period ts) = eCut (periodN ts (ts.count - 1)) := rfl

theorem temporals_period_valid {ts : TemporalS} (hv : valid_ts ts) :
    period_valid (temporals_period ts) = true := by
  rw [valid_iff_cut, temporals_period_sCut, temporals_period_eCut]
  have hc0 : 0 < ts.count := valid_ts_count_pos hv
  exact cutLE_trans (valid_iff_cut.mp (periodN_valid hv hc0))
    (periodN_cut_bounds hv hc0).2

theorem contains_bound_of_contains_member {ts : TemporalS} (hv : valid_ts ts)
    {s : TemporalSeq} (hs : s ∈ ts.sequences) {t : ℚ}
    (ht : contains_period_timestamp s.period t = true) :
    contains_period_timestamp (temporals_period ts) t = true := by
  obtain ⟨i, hilt, hgd⟩ := mem_index_getD hs
  have hic : i < ts.count := by rw [valid_ts_count_eq hv]; exact hilt
  have hsp : periodN ts i = s.period := by
    unfold periodN temporals_seq_n
    rw [hgd]
  obtain ⟨ht1, ht2⟩ := contains_iff_cut.mp ht
  rw [contains_iff_cut, temporals_period_sCut, temporals_period_eCut]
  obtain ⟨hb1, hb2⟩ := periodN_cut_bounds hv hic
  rw [hsp] at hb1 hb2
  exact ⟨cutLE_trans hb1 ht1, cutLE_trans ht2 hb2⟩

theorem coveredBy_bound {ts : TemporalS} (hv : valid_ts ts) {t : ℚ}
    (h : coveredBy ts t) :
    contains_period_timestamp (temporals_period ts) t = true := by
  obtain ⟨s, hs, hc⟩ := h
  exact contains_bound_of_contains_member hv hs hc

theorem inter_seq_fields {a b : TemporalSeq} {fr : TemporalSeq × TemporalSeq}
    (h : intersection_temporalseq_temporalseq a b = some fr) :
    overlaps_period_period a.period b.period = true ∧
    fr.1.period = period_inter a.period b.period ∧
    fr.2.period = period_inter a.period b.period ∧
    fr.1.valuetypid = a.valuetypid ∧ fr.1.srid = a.srid ∧ fr.1.hasZ = a.hasZ ∧
    fr.2.valuetypid = b.valuetypid ∧ fr.2.srid = b.srid ∧ fr.2.hasZ = b.hasZ := by
  unfold intersection_temporalseq_temporalseq at h
  split_ifs at h with ho
  rw [Option.some.injEq] at h
  subst h
  exact ⟨ho, rfl, rfl, rfl, rfl, rfl, rfl, rfl, rfl⟩

theorem inter_seq_none_iff (a b : TemporalSeq) :
    intersection_temporalseq_temporalseq a b = none ↔
      overlaps_period_period a.period b.period = false := by
  unfold intersection_temporalseq_temporalseq
  split_ifs with ho
  · simp [ho]
  · simp only [Bool.not_eq_true] at ho
    simp [ho]

theorem bool_eq_false {b : Bool} (h : ¬ b = true) : b = false := by
  cases b
  · rfl
  · exact absurd rfl h

theorem overlaps_comm (p q : Period) :
    overlaps_period_period p q = overlaps_period_period q p := by
  cases h1 : overlaps_period_period p q <;> cases h2 : overlaps_period_period q p <;>
    try rfl
  · obtain ⟨x, y⟩ := overlaps_iff_cut.mp h2
    rw [overlaps_iff_cut.mpr ⟨y, x⟩] at h1
    cases h1
  · obtain ⟨x, y⟩ := overlaps_iff_cut.mp h1
    rw [overlaps_iff_cut.mpr ⟨y, x⟩] at h2
    cases h2

theorem overlaps_self_of_valid {p : Period} (h : period_valid p = true) :
    overlaps_period_period p p = true := by
  have hc := valid_iff_cut.mp h
  exact overlaps_iff_cut.mpr ⟨hc, hc⟩

theorem mj_loop_mem : ∀ (l1 l2 : List TemporalSeq),
    ∀ fr ∈ mj_loop l1 l2, ∃ a ∈ l1, ∃ b ∈ l2,
      intersection_temporalseq_temporalseq a b = some fr := by
  intro l1 l2
  induction l1, l2 using mj_loop.induct with
  | case1 a as2 b bs2 fr0 hi ih1 ih2 ih3 =>
    intro fr hfr
    rw [mj_loop, hi] at hfr
    rcases List.mem_cons.mp hfr with h1 | h1
    · subst h1
      exact ⟨a, List.mem_cons_self _ _, b, List.mem_cons_self _ _, hi⟩
    · by_cases he : period_eqb a.period b.period
      · rw [if_pos he] at h1
        obtain ⟨a', ha', b', hb', hx⟩ := ih1 fr h1
        exact ⟨a', List.mem_cons_of_mem _ ha', b', List.mem_cons_of_mem _ hb', hx⟩
      · rw [if_neg he] at h1
        by_cases hl : period_ltb a.period b.period
        · rw [if_pos hl] at h1
          obtain ⟨a', ha', b', hb', hx⟩ := ih2 fr h1
          exact ⟨a', List.mem_cons_of_mem _ ha', b', hb', hx⟩
        · rw [if_neg hl] at h1
          obtain ⟨a', ha', b', hb', hx⟩ := ih3 fr h1
          exact ⟨a', ha', b', List.mem_cons_of_mem _ hb', hx⟩
  | case2 a as2 b bs2 hi ih1 ih2 ih3 =>
    intro fr hfr
    rw [mj_loop, hi] at hfr
    by_cases he : period_eqb a.period b.period
    · rw [if_pos he] at hfr
      obtain ⟨a', ha', b', hb', hx⟩ := ih1 fr hfr
      exact ⟨a', List.mem_cons_of_mem _ ha', b', List.mem_cons_of_mem _ hb', hx⟩
    · rw [if_neg he] at hfr
      by_cases hl : period_ltb a.period b.period
      · rw [if_pos hl] at hfr
        obtain ⟨a', ha', b', hb', hx⟩ := ih2 fr hfr
        exact ⟨a', List.mem_cons_of_mem _ ha', b', hb', hx⟩
      · rw [if_neg hl] at hfr
        obtain ⟨a', ha', b', hb', hx⟩ := ih3 fr hfr
        exact ⟨a', ha', b', List.mem_cons_of_mem _ hb', hx⟩
  | case3 x =>
    intro fr hfr
    rw [mj_loop] at hfr
    cases hfr
  | case4 x hx =>
    intro fr hfr
    cases x with
    | nil => exact absurd rfl hx
    | cons y ys =>
      rw [mj_loop] at hfr
      · cases hfr
      · exact hx

theorem not_overlap_of_before {x y : Period} (h : cutLT (eCut x) (sCut y)) :
    overlaps_period_period x y = false := by
  cases hov : overlaps_period_period x y
  · rfl
  · exfalso
    exact not_cutLE_of_LT h (overlaps_iff_cut.mp hov).2

theorem mj_loop_nil : ∀ (l1 l2 : List TemporalSeq),
    (∀ s ∈ l1, period_valid s.period = true) →
    (∀ s ∈ l2, period_valid s.period = true) →
    seqs_sorted l1 = true → seqs_sorted l2 = true →
    mj_loop l1 l2 = [] →
    ∀ a ∈ l1, ∀ b ∈ l2, overlaps_period_period a.period b.period = false := by
  intro l1 l2
  induction l1, l2 using mj_loop.induct with
  | case1 a as2 b bs2 fr0 hi ih1 ih2 ih3 =>
    intro _ _ _ _ hnil
    exfalso
    rw [mj_loop, hi] at hnil
    cases hnil
  | case2 a as2 b bs2 hi ih1 ih2 ih3 =>
    intro hv1 hv2 hs1 hs2 hnil
    rw [mj_loop, hi] at hnil
    have hab : overlaps_period_period a.period b.period = false :=
      (inter_seq_none_iff a b).mp hi
    have hv1t : ∀ s ∈ as2, period_valid s.period = true :=
      fun s hs => hv1 s (List.mem_cons_of_mem _ hs)
    have hv2t : ∀ s ∈ bs2, period_valid s.period = true :=
      fun s hs => hv2 s (List.mem_cons_of_mem _ hs)
    by_cases he : period_eqb a.period b.period
    · exfalso
      have hpe : a.period = b.period := by
        rw [period_eqb, beq_iff_eq] at he
        exact period_cmp_eq_zero_iff.mp he
      rw [hpe] at hab
      rw [overlaps_self_of_valid (hv2 b (List.mem_cons_self _ _))] at hab
      cases hab
    · rw [if_neg he] at hnil
      by_cases hl : period_ltb a.period b.period
      · rw [if_pos hl] at hnil
        have ihh := ih2 hv1t hv2 (seqs_sorted_tail hs1) hs2 hnil
        intro x hx y hy
        rcases List.mem_cons.mp hx with hx1 | hx2
        · subst hx1
          have hvb := hv2 b (List.mem_cons_self _ _)
          have h1 : cutLT (eCut x.period) (sCut b.period) :=
            before_of_not_overlap_le hvb hab (period_ltb_sCut_le hl)
          rcases List.mem_cons.mp hy with hy1 | hy2
          · subst hy1; exact hab
          · have h2 := sorted_head_lt hs2 hv2t y hy2
            exact not_overlap_of_before
              (cutLT_trans (cutLT_of_LT_of_LE h1 (valid_iff_cut.mp hvb)) h2)
        · exact ihh x hx2 y hy
      · rw [if_neg hl] at hnil
        have hgl : period_ltb b.period a.period = true :=
          period_ltb_of_not (bool_eq_false he) (bool_eq_false hl)
        have hba : overlaps_period_period b.period a.period = false :=
          (overlaps_comm a.period b.period) ▸ hab
        have ihh := ih3 hv1 hv2t hs1 (seqs_sorted_tail hs2) hnil
        intro x hx y hy
        rcases List.mem_cons.mp hy with hy1 | hy2
        · subst hy1
          have hva := hv1 a (List.mem_cons_self _ _)
          have h1 : cutLT (eCut y.period) (sCut a.period) :=
            before_of_not_overlap_le hva hba (period_ltb_sCut_le hgl)
          rcases List.mem_cons.mp hx with hx1 | hx2
          · subst hx1; exact hab
          · have h2 := sorted_head_lt hs1 hv1t x hx2
            have h3 : cutLT (eCut y.period) (sCut x.period) :=
              cutLT_trans (cutLT_of_LT_of_LE h1 (valid_iff_cut.mp hva)) h2
            rw [overlaps_comm]
            exact not_overlap_of_before h3
        · exact ihh x hx y hy2
  | case3 x =>
    intro _ _ _ _ _ a _ b hb
    cases hb
  | case4 x hx =>
    intro _ _ _ _ _ a ha b _
    cases ha

theorem mj_loop_chain : ∀ (l1 l2 : List TemporalSeq),
    (∀ s ∈ l1, period_valid s.period = true) →
    (∀ s ∈ l2, period_valid s.period = true) →
    seqs_sorted l1 = true → seqs_sorted l2 = true →
    List.Chain' (fun x y : TemporalSeq × TemporalSeq =>
      cutLT (eCut x.1.period) (sCut y.1.period)) (mj_loop l1 l2) := by
  intro l1 l2
  induction l1, l2 using mj_loop.induct with
  | case1 a as2 b bs2 fr0 hi ih1 ih2 ih3 =>
    intro hv1 hv2 hs1 hs2
    have hv1t : ∀ s ∈ as2, period_valid s.period = true :=
      fun s hs => hv1 s (List.mem_cons_of_mem _ hs)
    have hv2t : ∀ s ∈ bs2, period_valid s.period = true :=
      fun s hs => hv2 s (List.mem_cons_of_mem _ hs)
    rw [mj_loop, hi]
    obtain ⟨hov, hp1, hp2, _⟩ := inter_seq_fields hi
    by_cases he : period_eqb a.period b.period
    · rw [if_pos he]
      refine List.chain'_cons'.mpr
        ⟨?_, ih1 hv1t hv2t (seqs_sorted_tail hs1) (seqs_sorted_tail hs2)⟩
      intro y hy
      obtain ⟨a', ha', b', hb', hx⟩ := mj_loop_mem as2 bs2 y (List.mem_of_mem_head? hy)
      obtain ⟨hov', hp1', _, _⟩ := inter_seq_fields hx
      rw [hp1, hp1', eCut_inter, sCut_inter]
      have hlt : cutLT (eCut a.period) (sCut a'.period) := sorted_head_lt hs1 hv1t a' ha'
      exact cutLT_of_LE_of_LT (cutMin_le_left _ _) (cutLT_of_LT_of_LE hlt (le_cutMax_left _ _))
    · rw [if_neg he]
      by_cases hl : period_ltb a.period b.period
      · rw [if_pos hl]
        refine List.chain'_cons'.mpr ⟨?_, ih2 hv1t hv2 (seqs_sorted_tail hs1) hs2⟩
        intro y hy
        obtain ⟨a', ha', b', hb', hx⟩ :=
          mj_loop_mem as2 (b :: bs2) y (List.mem_of_mem_head? hy)
        obtain ⟨hov', hp1', _, _⟩ := inter_seq_fields hx
        rw [hp1, hp1', eCut_inter, sCut_inter]
        have hlt : cutLT (eCut a.period) (sCut a'.period) := sorted_head_lt hs1 hv1t a' ha'
        exact cutLT_of_LE_of_LT (cutMin_le_left _ _)
          (cutLT_of_LT_of_LE hlt (le_cutMax_left _ _))
      · rw [if_neg hl]
        refine List.chain'_cons'.mpr ⟨?_, ih3 hv1 hv2t hs1 (seqs_sorted_tail hs2)⟩
        intro y hy
        obtain ⟨a', ha', b', hb', hx⟩ :=
          mj_loop_mem (a :: as2) bs2 y (List.mem_of_mem_head? hy)
        obtain ⟨hov', hp1', _, _⟩ := inter_seq_fields hx
        rw [hp1, hp1', eCut_inter, sCut_inter]
        have hlt : cutLT (eCut b.period) (sCut b'.period) := sorted_head_lt hs2 hv2t b' hb'
        exact cutLT_of_LE_of_LT (cutMin_le_right _ _)
          (cutLT_of_LT_of_LE hlt (le_cutMax_right _ _))
  | case2 a as2 b bs2 hi ih1 ih2 ih3 =>
    intro hv1 hv2 hs1 hs2
    have hv1t : ∀ s ∈ as2, period_valid s.period = true :=
      fun s hs => hv1 s (List.mem_cons_of_mem _ hs)
    have hv2t : ∀ s ∈ bs2, period_valid s.period = true :=
      fun s hs => hv2 s (List.mem_cons_of_mem _ hs)
    rw [mj_loop, hi]
    by_cases he : period_eqb a.period b.period
    · rw [if_pos he]
      exact ih1 hv1t hv2t (seqs_sorted_tail hs1) (seqs_sorted_tail hs2)
    · rw [if_neg he]
      by_cases hl : period_ltb a.period b.period
      · rw [if_pos hl]
        exact ih2 hv1t hv2 (seqs_sorted_tail hs1) hs2
      · rw [if_neg hl]
        exact ih3 hv1 hv2t hs1 (seqs_sorted_tail hs2)
  | case3 x =>
    intro _ _ _ _
    rw [mj_loop]
    exact List.chain'_nil
  | case4 x hx =>
    intro _ _ _ _
    cases x with
    | nil => exact absurd rfl hx
    | cons y ys =>
      rw [mj_loop]
      · exact List.chain'_nil
      · exact hx

theorem seqs_sorted_of_chain : ∀ (l : List (TemporalSeq × TemporalSeq)),
    List.Chain' (fun x y : TemporalSeq × TemporalSeq =>
      cutLT (eCut x.1.period) (sCut y.1.period)) l →
    (∀ fr ∈ l, fr.2.period = fr.1.period) →
    seqs_sorted (l.map Prod.fst) = true ∧ seqs_sorted (l.map Prod.snd) = true := by
  intro l
  induction l with
  | nil => intro _ _; exact ⟨rfl, rfl⟩
  | cons x r ih =>
    cases r with
    | nil => intro _ _; exact ⟨rfl, rfl⟩
    | cons y r2 =>
      intro hch hp
      obtain ⟨hxy, hrest⟩ := List.chain'_cons.mp hch
      have hpt : ∀ fr ∈ y :: r2, fr.2.period = fr.1.period :=
        fun fr hf => hp fr (List.mem_cons_of_mem _ hf)
      obtain ⟨ih1, ih2⟩ := ih hrest hpt
      constructor
      · simp only [List.map_cons]
        rw [seqs_sorted, Bool.and_eq_true]
        refine ⟨?_, by simpa using ih1⟩
        rw [not_broken_iff_cut.mpr hxy]
        rfl
      · simp only [List.map_cons]
        rw [seqs_sorted, Bool.and_eq_true]
        refine ⟨?_, by simpa using ih2⟩
        have hx2 : x.2.period = x.1.period := hp x (List.mem_cons_self _ _)
        have hy2 : y.2.period = y.1.period :=
          hp y (List.mem_cons_of_mem _ (List.mem_cons_self _ _))
        rw [hx2, hy2, not_broken_iff_cut.mpr hxy]
        rfl

theorem valid_ts_uniform_fields {ts : TemporalS} (hv : valid_ts ts) :
    ∀ s ∈ ts.sequences,
      s.valuetypid = (ts.sequences.getD 0 default).valuetypid ∧
      s.srid = (ts.sequences.getD 0 default).srid ∧
      s.hasZ = (ts.sequences.getD 0 default).hasZ := by
  intro s hs
  have huni := hv.2.2.2.2.2.1
  unfold seqs_uniform at huni
  rw [List.all_eq_true] at huni
  have hx := huni s hs
  simp only [Bool.and_eq_true, beq_iff_eq] at hx
  exact ⟨hx.1.1.1.1, hx.1.1.2, hx.1.2⟩

theorem pairs_okb_of_sorted_eqfields {isgeo : Bool} {l : List TemporalSeq}
    (hs : seqs_sorted l = true)
    (hu : ∀ x ∈ l, ∀ y ∈ l, x.srid = y.srid ∧ x.hasZ = y.hasZ) :
    pairs_okb isgeo l = true := by
  rw [pairs_okb_iff_forall]
  intro i hi
  unfold pair_checkb
  have hb := (seqs_sorted_iff_forall l).mp hs i hi
  rw [hb]
  have hm1 : l.getD i default ∈ l := getD_mem_of_lt (by omega)
  have hm2 : l.getD (i+1) default ∈ l := getD_mem_of_lt hi
  obtain ⟨hsr, hz⟩ := hu _ hm1 _ hm2
  rw [hsr, hz]
  cases isgeo <;> simp

theorem temporals_make_ok_of_pairs {s0 : TemporalSeq} {rest : List TemporalSeq}
    (h : pairs_okb s0.valuetypid.isGeo (s0 :: rest) = true) :
    temporals_make (s0 :: rest) false =
      .ok (build_ts (s0 :: rest) s0 s0.valuetypid.isGeo) := by
  rw [temporals_make]
  rw [(make_check_ok_iff _ _ _).mpr h]
  simp [Bind.bind, Except.bind]

/-- **C3**: when the bounding periods of the two sequence sets (start of the
first, end of the last sequence of each) do not overlap,
`intersection_temporals_temporals` reports "no overlap" before examining any
sequence pair; it succeeds — two non-empty outputs — exactly when some instant
is covered by a sequence of each operand; and every timestamp inside any
returned fragment's period lies inside both operands' bounding periods. -/
theorem intersection_temporals_temporals_spec_C3 (A B : TemporalS)
    (hA : valid_ts A) (hB : valid_ts B) :
    (overlaps_period_period (temporals_period A) (temporals_period B) = false →
      intersection_temporals_temporals A B = .ok none) ∧
    ((∃ r1 r2, intersection_temporals_temporals A B = .ok (some (r1, r2))) ↔
      ∃ t : ℚ, coveredBy A t ∧ coveredBy B t) ∧
    (∀ r1 r2, intersection_temporals_temporals A B = .ok (some (r1, r2)) →
      0 < r1.count ∧ 0 < r2.count ∧
      (∀ s ∈ r1.sequences, ∀ t : ℚ, contains_period_timestamp s.period t = true →
        contains_period_timestamp (temporals_period A) t = true ∧
        contains_period_timestamp (temporals_period B) t = true) ∧
      (∀ s ∈ r2.sequences, ∀ t : ℚ, contains_period_timestamp s.period t = true →
        contains_period_timestamp (temporals_period A) t = true ∧
        contains_period_timestamp (temporals_period B) t = true)) := by
  have hv1 : ∀ s ∈ A.sequences, period_valid s.period = true :=
    fun s hs => period_valid_of_seq_valid (hA.2.2.2.1 s hs)
  have hv2 : ∀ s ∈ B.sequences, period_valid s.period = true :=
    fun s hs => period_valid_of_seq_valid (hB.2.2.2.1 s hs)
  have hs1 : seqs_sorted A.sequences = true := hA.2.2.2.2.1
  have hs2 : seqs_sorted B.sequences = true := hB.2.2.2.2.1
  refine ⟨?_, ?_, ?_⟩
  · intro h
    unfold intersection_temporals_temporals
    rw [if_pos h]
  · constructor
    · rintro ⟨r1, r2, hr⟩
      unfold intersection_temporals_temporals at hr
      split_ifs at hr with hcond
      · simp at hr
      · cases hmj : mj_loop A.sequences B.sequences with
        | nil => rw [hmj] at hr; simp at hr
        | cons fr frs =>
          obtain ⟨a, ha, b, hb, hx⟩ :=
            mj_loop_mem A.sequences B.sequences fr
              (by rw [hmj]; exact List.mem_cons_self _ _)
          obtain ⟨hov, _⟩ := inter_seq_fields hx
          obtain ⟨t, hta, htb⟩ :=
            (overlaps_iff_exists_mem (hv1 a ha) (hv2 b hb)).mp hov
          exact ⟨t, ⟨a, ha, hta⟩, ⟨b, hb, htb⟩⟩
    · rintro ⟨t, ⟨sa, hsa, hca⟩, sb, hsb, hcb⟩
      have hba : contains_period_timestamp (temporals_period A) t = true :=
        contains_bound_of_contains_member hA hsa hca
      have hbb : contains_period_timestamp (temporals_period B) t = true :=
        contains_bound_of_contains_member hB hsb hcb
      have hovb : overlaps_period_period (temporals_period A)
          (temporals_period B) = true :=
        (overlaps_iff_exists_mem (temporals_period_valid hA)
          (temporals_period_valid hB)).mpr ⟨t, hba, hbb⟩
      have hcond : ¬ (overlaps_period_period (temporals_period A)
          (temporals_period B) = false) := by
        rw [hovb]; simp
      cases hmj : mj_loop A.sequences B.sequences with
      | nil =>
        exfalso
        have hno := mj_loop_nil A.sequences B.sequences hv1 hv2 hs1 hs2 hmj sa hsa sb hsb
        have hyes := (overlaps_iff_exists_mem (hv1 sa hsa) (hv2 sb hsb)).mpr ⟨t, hca, hcb⟩
        rw [hyes] at hno
        cases hno
      | cons fr frs =>
        have hch := mj_loop_chain A.sequences B.sequences hv1 hv2 hs1 hs2
        rw [hmj] at hch
        have hper : ∀ x ∈ fr :: frs, x.2.period = x.1.period := by
          intro x hxm
          obtain ⟨a', _, b', _, hx⟩ :=
            mj_loop_mem A.sequences B.sequences x (by rw [hmj]; exact hxm)
          obtain ⟨_, hp1, hp2, _⟩ := inter_seq_fields hx
          rw [hp2, hp1]
        obtain ⟨hsort1, hsort2⟩ := seqs_sorted_of_chain (fr :: frs) hch hper
        have hfst_fields : ∀ x ∈ (fr :: frs).map Prod.fst,
            x.srid = (A.sequences.getD 0 default).srid ∧
            x.hasZ = (A.sequences.getD 0 default).hasZ := by
          intro x hxm
          obtain ⟨fr', hfr', hfx⟩ := List.mem_map.mp hxm
          obtain ⟨a', ha', b', _, hx⟩ :=
            mj_loop_mem A.sequences B.sequences fr' (by rw [hmj]; exact hfr')
          obtain ⟨_, _, _, _, hsrid1, hz1, _, _, _⟩ := inter_seq_fields hx
          obtain ⟨_, hsr0, hz0⟩ := valid_ts_uniform_fields hA a' ha'
          exact ⟨by rw [← hfx, hsrid1, hsr0], by rw [← hfx, hz1, hz0]⟩
        have hsnd_fields : ∀ x ∈ (fr :: frs).map Prod.snd,
            x.srid = (B.sequences.getD 0 default).srid ∧
            x.hasZ = (B.sequences.getD 0 default).hasZ := by
          intro x hxm
          obtain ⟨fr', hfr', hfx⟩ := List.mem_map.mp hxm
          obtain ⟨a', _, b', hb', hx⟩ :=
            mj_loop_mem A.sequences B.sequences fr' (by rw [hmj]; exact hfr')
          obtain ⟨_, _, _, _, _, _, _, hsrid2, hz2⟩ := inter_seq_fields hx
          obtain ⟨_, hsr0, hz0⟩ := valid_ts_uniform_fields hB b' hb'
          exact ⟨by rw [← hfx, hsrid2, hsr0], by rw [← hfx, hz2, hz0]⟩
        have hpair1 : pairs_okb fr.1.valuetypid.isGeo ((fr :: frs).map Prod.fst) = true :=
          pairs_okb_of_sorted_eqfields hsort1
            (fun x hx y hy => ⟨(hfst_fields x hx).1.trans (hfst_fields y hy).1.symm,
              (hfst_fields x hx).2.trans (hfst_fields y hy).2.symm⟩)
        have hpair2 : pairs_okb fr.2.valuetypid.isGeo ((fr :: frs).map Prod.snd) = true :=
          pairs_okb_of_sorted_eqfields hsort2
            (fun x hx y hy => ⟨(hsnd_fields x hx).1.trans (hsnd_fields y hy).1.symm,
              (hsnd_fields x hx).2.trans (hsnd_fields y hy).2.symm⟩)
        rw [List.map_cons] at hpair1 hpair2
        have hmk1 : temporals_make ((fr :: frs).map Prod.fst) false =
            .ok (build_ts (fr.1 :: frs.map Prod.fst) fr.1 fr.1.valuetypid.isGeo) := by
          rw [List.map_cons]
          exact temporals_make_ok_of_pairs hpair1
        have hmk2 : temporals_make ((fr :: frs).map Prod.snd) false =
            .ok (build_ts (fr.2 :: frs.map Prod.snd) fr.2 fr.2.valuetypid.isGeo) := by
          rw [List.map_cons]
          exact temporals_make_ok_of_pairs hpair2
        refine ⟨build_ts (fr.1 :: frs.map Prod.fst) fr.1 fr.1.valuetypid.isGeo,
          build_ts (fr.2 :: frs.map Prod.snd) fr.2 fr.2.valuetypid.isGeo, ?_⟩
        unfold intersection_temporals_temporals
        rw [if_neg hcond, hmj]
        simp only [hmk1, hmk2]
  · intro r1 r2 hr
    unfold intersection_temporals_temporals at hr
    split_ifs at hr with hcond
    · simp at hr
    · cases hmj : mj_loop A.sequences B.sequences with
      | nil => rw [hmj] at hr; simp at hr
      | cons fr frs =>
        rw [hmj] at hr
        cases hm1 : temporals_make ((fr :: frs).map Prod.fst) false with
        | error e =>
          simp only [hm1] at hr
          exact Except.noConfusion hr
        | ok v1 =>
          cases hm2 : temporals_make ((fr :: frs).map Prod.snd) false with
          | error e =>
            simp only [hm1, hm2] at hr
            exact Except.noConfusion hr
          | ok v2 =>
            simp only [hm1, hm2, Except.ok.injEq, Option.some.injEq,
              Prod.mk.injEq] at hr
            obtain ⟨he1, he2⟩ := hr
            subst he1
            subst he2
            obtain ⟨hseq1, hcnt1⟩ := temporals_make_sequences hm1
            obtain ⟨hseq2, hcnt2⟩ := temporals_make_sequences hm2
            have hseq1' : v1.sequences = (fr :: frs).map Prod.fst := by
              rw [hseq1]; simp
            have hseq2' : v2.sequences = (fr :: frs).map Prod.snd := by
              rw [hseq2]; simp
            refine ⟨?_, ?_, ?_, ?_⟩
            · rw [hcnt1, hseq1']; simp
            · rw [hcnt2, hseq2']; simp
            · intro s hsm t ht
              rw [hseq1'] at hsm
              obtain ⟨fr', hfr', hfx⟩ := List.mem_map.mp hsm
              obtain ⟨a', ha', b', hb', hx⟩ :=
                mj_loop_mem A.sequences B.sequences fr' (by rw [hmj]; exact hfr')
              obtain ⟨_, hp1, _, _⟩ := inter_seq_fields hx
              rw [← hfx, hp1] at ht
              obtain ⟨hta, htb⟩ := contains_inter_iff.mp ht
              exact ⟨contains_bound_of_contains_member hA ha' hta,
                contains_bound_of_contains_member hB hb' htb⟩
            · intro s hsm t ht
              rw [hseq2'] at hsm
              obtain ⟨fr', hfr', hfx⟩ := List.mem_map.mp hsm
              obtain ⟨a', ha', b', hb', hx⟩ :=
                mj_loop_mem A.sequences B.sequences fr' (by rw [hmj]; exact hfr')
              obtain ⟨_, _, hp2, _⟩ := inter_seq_fields hx
              rw [← hfx, hp2] at ht
              obtain ⟨hta, htb⟩ := contains_inter_iff.mp ht
              exact ⟨contains_bound_of_contains_member hA ha' hta,
                contains_bound_of_contains_member hB hb' htb⟩

/-- Witness for C3: the concrete valid two-sequence set intersected with
itself satisfies both the early-exit clause and the success
characterization. -/
theorem intersection_temporals_temporals_spec_C3_witness :
    valid_ts exTS ∧
    (overlaps_period_period (temporals_period exTS) (temporals_period exTS) = false →
      intersection_temporals_temporals exTS exTS = .ok none) ∧
    ((∃ r1 r2, intersection_temporals_temporals exTS exTS = .ok (some (r1, r2))) ↔
      ∃ t : ℚ, coveredBy exTS t ∧ coveredBy exTS t) :=
  ⟨by decide,
    (intersection_temporals_temporals_spec_C3 exTS exTS (by decide) (by decide)).1,
    (intersection_temporals_temporals_spec_C3 exTS exTS (by decide) (by decide)).2.1⟩
